import Mathlib

/-!
Verification of the Dijkstra repository (src/Dijkstra.py).

The Python source is shallowly embedded: dictionaries become association
lists with Python's insertion-order update semantics, the `heapq` min-heap
becomes a multiset of entries from which the lexicographically least pair
is popped, the console step report printed under `mostrar_pasos` becomes a
returned list of step records, and the two `while` loops become fuel-indexed
recursions returning `Except` (the fuel is shown sufficient below, and
`KeyError` from a missing dictionary key is an explicit error value).
-/

namespace Dij

/-- Node identifiers; the example's string labels A, B, C, D are encoded as
0, 1, 2, 3, which preserves their comparison order. -/
abbrev Node := Nat

/-- A graph as in the source: a dictionary from node to its neighbor
dictionary of edge weights. -/
abbrev Adj := List (Node × Int)

/-- Adjacency structure of the whole graph. -/
abbrev Graph := List (Node × Adj)

/-- Python dictionary read: the value at the first matching key. -/
def lookup {β : Type} : List (Node × β) → Node → Option β
  | [], _ => none
  | p :: rest, k => if p.1 = k then some p.2 else lookup rest k

/-- Python dictionary write: update the entry in place when the key is
present, otherwise append a fresh entry at the end. -/
def setd {β : Type} : List (Node × β) → Node → β → List (Node × β)
  | [], k, v => [(k, v)]
  | p :: rest, k, v => if p.1 = k then (k, v) :: rest else p :: setd rest k v

/-- Key list of a dictionary, in insertion order. -/
def keysOf {β : Type} (l : List (Node × β)) : List Node := l.map Prod.fst

/-- One block printed under `mostrar_pasos` (source lines 41-48): step
index, the node just settled, its confirmed distance, and the full
distance dictionary at that instant. `none` as a distance is infinity. -/
structure StepRecord where
  paso : Nat
  nodo : Node
  dist : Int
  snapshot : List (Node × Option Int)
deriving Repr, DecidableEq

/-- The mutable state of `dijkstra`: `distancias` (with `none` standing for
`float('inf')`), `anterior`, the heap `cola`, the visited set kept as a
list in insertion order, the step counter `paso`, and the emitted step
records. -/
structure DState where
  distancias : List (Node × Option Int)
  anterior : List (Node × Option Node)
  cola : List (Int × Node)
  visitados : List Node
  paso : Nat
  trace : List StepRecord
deriving Repr, DecidableEq

/-- Failure modes of the embedded code: a Python `KeyError`, or exhaustion
of the fuel that bounds the embedded while-loops. -/
inductive Err
  | keyError
  | noFuel
deriving Repr, DecidableEq

/-- The lexicographically smaller of two heap entries, as Python compares
the tuples `(distancia, nodo)`. -/
def minEntry (p q : Int × Node) : Int × Node :=
  if p.1 < q.1 ∨ (p.1 = q.1 ∧ p.2 ≤ q.2) then p else q

/-- Model of `heapq.heappop`: remove and return the least entry of the
heap under tuple comparison. Returns `none` on the empty heap, ending the
`while cola` loop. -/
def heapPop : List (Int × Node) → Option ((Int × Node) × List (Int × Node))
  | [] => none
  | x :: xs =>
    let m := xs.foldl minEntry x
    some (m, (x :: xs).erase m)

/-- Comparison `nueva_dist < distancias[vecino]`, where the stored value
`none` is `float('inf')`. -/
def ltOpt (a : Int) : Option Int → Bool
  | none => true
  | some c => decide (a < c)

/-- State change of a successful improving relaxation (source lines
61-64). -/
def relaxUpd (d : Int) (u : Node) (st : DState) (e : Node × Int) : DState :=
  { st with
    distancias := setd st.distancias e.1 (some (d + e.2)),
    anterior := setd st.anterior e.1 (some u),
    cola := st.cola ++ [(d + e.2, e.1)] }

/-- Body of the `for vecino, peso in grafo[nodo_actual].items()` loop for a
single edge (source lines 55-64): skip visited neighbors, read the current
tentative distance (KeyError when absent), and apply the improving update
when the new distance is smaller. -/
def relaxOne (d : Int) (u : Node) (st : DState) (e : Node × Int) : Except Err DState :=
  if e.1 ∈ st.visitados then .ok st
  else
    match lookup st.distancias e.1 with
    | none => .error .keyError
    | some dv =>
      if ltOpt (d + e.2) dv then .ok (relaxUpd d u st e)
      else .ok st

/-- The relaxation loop over the whole adjacency list of the settled
node. -/
def relaxAll (d : Int) (u : Node) : DState → Adj → Except Err DState
  | st, [] => .ok st
  | st, e :: rest =>
    match relaxOne d u st e with
    | .error err => .error err
    | .ok st' => relaxAll d u st' rest

/-- Settling a popped node: add it to the visited set and, when
`mostrar_pasos` is on, print the step block — modelled as appending a step
record whose snapshot is the current distance dictionary — and increment
`paso` (the counter only advances inside the `if mostrar_pasos` branch, as
in the source). -/
def settleStep (mostrar : Bool) (d : Int) (u : Node) (st : DState) : DState :=
  let st1 := { st with visitados := st.visitados ++ [u] }
  if mostrar then
    { st1 with
      trace := st1.trace ++ [⟨st1.paso, u, d, st1.distancias⟩],
      paso := st1.paso + 1 }
  else st1

/-- The `while cola` loop of `dijkstra` (source lines 32-64), one fuel unit
per iteration: pop the least entry, discard it when stale, otherwise
settle, emit the step record, break early when the settled node is the
requested destination, and relax the outgoing edges (`grafo[nodo_actual]`
raises KeyError when the settled node has no adjacency entry). -/
def dijkstraLoop (g : Graph) (destino : Option Node) (mostrar : Bool) :
    Nat → DState → Except Err DState
  | 0, _ => .error .noFuel
  | fuel + 1, st =>
    match heapPop st.cola with
    | none => .ok st
    | some (du, rest) =>
      let st1 : DState := { st with cola := rest }
      if du.2 ∈ st1.visitados then dijkstraLoop g destino mostrar fuel st1
      else
        let st2 := settleStep mostrar du.1 du.2 st1
        if destino = some du.2 then .ok st2
        else
          match lookup g du.2 with
          | none => .error .keyError
          | some adj =>
            match relaxAll du.1 du.2 st2 adj with
            | .error e => .error e
            | .ok st3 => dijkstraLoop g destino mostrar fuel st3

/-- The initial state of `dijkstra` (source lines 17-30): all distances
infinite except the source at 0 (the dictionary write adds the source as a
fresh key when it is not in the graph), all predecessors `None`, the heap
holding `(0, inicio)`, no visited nodes. -/
def initState (g : Graph) (inicio : Node) : DState :=
  { distancias := setd (g.map (fun p => (p.1, (none : Option Int)))) inicio (some 0),
    anterior := g.map (fun p => (p.1, (none : Option Node))),
    cola := [(0, inicio)],
    visitados := [],
    paso := 0,
    trace := [] }

/-- Fuel bookkeeping: total remaining relaxation work of the not yet
visited adjacency entries. -/
def pendiente (g : Graph) (vis : List Node) : Nat :=
  ((g.filter (fun p => decide (p.1 ∉ vis))).map (fun p => p.2.length + 1)).sum

/-- Fuel measure of a loop state; it strictly decreases at every
iteration, so starting from it the loop never exhausts its fuel. -/
def stFuel (g : Graph) (st : DState) : Nat :=
  st.cola.length + pendiente g st.visitados

/-- The full run of `dijkstra`, returning the complete final state. -/
def dijkstraState (g : Graph) (inicio : Node) (destino : Option Node) (mostrar : Bool) :
    Except Err DState :=
  dijkstraLoop g destino mostrar (stFuel g (initState g inicio) + 1) (initState g inicio)

/-- `dijkstra(grafo, inicio, fin, mostrar_pasos)` as the source returns it
(line 69): the pair of the distance dictionary and the predecessor
dictionary. -/
def dijkstra (g : Graph) (inicio : Node) (destino : Option Node) (mostrar : Bool) :
    Except Err (List (Node × Option Int) × List (Node × Option Node)) :=
  (dijkstraState g inicio destino mostrar).map (fun st => (st.distancias, st.anterior))

/-- The `while nodo is not None` loop of `reconstruir_camino` (source
lines 78-80), one fuel unit per iteration: append the current node and
follow its predecessor link (KeyError when the node is not a key of
`anterior`). -/
def reconGo (anterior : List (Node × Option Node)) :
    Nat → Option Node → List Node → Except Err (List Node)
  | 0, _, _ => .error .noFuel
  | _ + 1, none, camino => .ok camino
  | fuel + 1, some v, camino =>
    match lookup anterior v with
    | none => .error .keyError
    | some p => reconGo anterior fuel p (camino ++ [v])

/-- `reconstruir_camino(anterior, inicio, fin)` (source lines 72-85):
walk the predecessor chain from `fin`, reverse the accumulated list, and
return the empty list when it does not start at `inicio`. The fuel bounds
the chain walk, which has no termination guarantee for an arbitrary
predecessor dictionary. -/
def reconstruir_camino (anterior : List (Node × Option Node)) (inicio destino : Node)
    (fuel : Nat) : Except Err (List Node) :=
  match reconGo anterior fuel (some destino) [] with
  | .error e => .error e
  | .ok camino =>
    let camino := camino.reverse
    if camino = [] ∨ camino.head? ≠ some inicio then .ok []
    else .ok camino

/-- Outcome of the `__main__` entry point: either the membership guard on
source and destination fails and only an error message is printed, or
`dijkstra` is run. -/
inductive MainOut
  | nodeError
  | ran (res : Except Err (List (Node × Option Int) × List (Node × Option Node)))
deriving Repr

/-- The `__main__` driver (source lines 163-171): check that both entered
nodes are keys of the graph before doing anything else; only when the
check passes is `dijkstra` invoked. -/
def mainRun (g : Graph) (inicio destino : Node) : MainOut :=
  if inicio ∉ keysOf g ∨ destino ∉ keysOf g then .nodeError
  else .ran (dijkstra g inicio (some destino) true)

/-- Well-formedness inherited from Python dictionaries: a neighbor
dictionary has no duplicate keys. -/
def AdjWF (g : Graph) : Prop := ∀ p ∈ g, (keysOf p.2).Nodup

/-- Every node referenced as a neighbor is itself a key of the graph. -/
def ClosedG (g : Graph) : Prop := ∀ p ∈ g, ∀ e ∈ p.2, e.1 ∈ keysOf g

/-- All edge weights are non-negative. -/
def NonnegW (g : Graph) : Prop := ∀ p ∈ g, ∀ e ∈ p.2, (0 : Int) ≤ e.2

/-- Weight of the edge from `u` to `v`, when present. -/
def edgeW (g : Graph) (u v : Node) : Option Int :=
  match lookup g u with
  | none => none
  | some adj => lookup adj v

/-- Total weight of a walk starting at `u` and visiting the listed nodes in
order, when every step is an edge of the graph. -/
def costOfWalk (g : Graph) : Node → List Node → Option Int
  | _, [] => some 0
  | u, v :: rest =>
    match edgeW g u v, costOfWalk g v rest with
    | some w, some c => some (w + c)
    | _, _ => none

/-- Final node of a walk starting at `u` and visiting the listed nodes. -/
def endOf : Node → List Node → Node
  | u, [] => u
  | _, v :: rest => endOf v rest

/-- `n` is reachable from `s`: some walk of the graph leads from `s` to
`n`. -/
def Reachable (g : Graph) (s n : Node) : Prop :=
  ∃ l c, costOfWalk g s l = some c ∧ endOf s l = n

/-- Position of the first occurrence of a node in a list. -/
def idxOf : List Node → Node → Nat
  | [], _ => 0
  | x :: xs, a => if x = a then 0 else idxOf xs a + 1

end Dij

namespace Dij

/-! Dictionary lemmas. -/

theorem lookup_mem {β : Type} {l : List (Node × β)} {k : Node} {v : β}
    (h : lookup l k = some v) : (k, v) ∈ l := by
  induction l with
  | nil => simp [lookup] at h
  | cons p rest ih =>
    simp only [lookup] at h
    by_cases hk : p.1 = k
    · rw [if_pos hk] at h
      have hv : p.2 = v := by injection h
      have hp : p = (k, v) := by
        cases p with
        | mk a b =>
          simp only at hk hv
          rw [hk, hv]
      rw [hp]
      exact List.mem_cons_self _ _
    · rw [if_neg hk] at h
      exact List.mem_cons_of_mem _ (ih h)

theorem lookup_some_mem_keys {β : Type} {l : List (Node × β)} {k : Node} {v : β}
    (h : lookup l k = some v) : k ∈ keysOf l := by
  have := lookup_mem h
  exact List.mem_map_of_mem Prod.fst this

theorem mem_keys_exists_lookup {β : Type} {l : List (Node × β)} {k : Node}
    (h : k ∈ keysOf l) : ∃ v, lookup l k = some v := by
  induction l with
  | nil => simp [keysOf] at h
  | cons p rest ih =>
    by_cases hk : p.1 = k
    · exact ⟨p.2, by simp [lookup, hk]⟩
    · have : k ∈ keysOf rest := by
        simp only [keysOf, List.map_cons, List.mem_cons] at h
        rcases h with h | h
        · exact absurd h.symm hk
        · exact h
      obtain ⟨v, hv⟩ := ih this
      exact ⟨v, by simp [lookup, hk, hv]⟩

theorem lookup_setd_self {β : Type} (l : List (Node × β)) (k : Node) (v : β) :
    lookup (setd l k v) k = some v := by
  induction l with
  | nil => simp [setd, lookup]
  | cons p rest ih =>
    by_cases hk : p.1 = k
    · simp [setd, hk, lookup]
    · simp [setd, hk, lookup, ih]

theorem lookup_setd_ne {β : Type} (l : List (Node × β)) {k k' : Node} (v : β)
    (h : k' ≠ k) : lookup (setd l k v) k' = lookup l k' := by
  have hne : ¬ (k = k') := fun hh => h hh.symm
  induction l with
  | nil => simp [setd, lookup, hne]
  | cons p rest ih =>
    by_cases hk : p.1 = k
    · subst hk
      have hp : ¬ (p.1 = k') := fun hh => hne (hh)
      simp [setd, lookup, hp]
    · by_cases hk' : p.1 = k'
      · simp [setd, hk, lookup, hk', h]
      · simp [setd, hk, lookup, hk', ih]

theorem keysOf_setd_of_mem {β : Type} {l : List (Node × β)} {k : Node} (v : β) :
    k ∈ keysOf l → keysOf (setd l k v) = keysOf l := by
  induction l with
  | nil =>
    intro h
    simp [keysOf] at h
  | cons p rest ih =>
    intro h
    by_cases hk : p.1 = k
    · simp [setd, hk, keysOf]
    · have hm : k ∈ keysOf rest := by
        simp only [keysOf, List.map_cons, List.mem_cons] at h
        rcases h with h | h
        · exact absurd h.symm hk
        · exact h
      have := ih hm
      simp only [setd, if_neg hk, keysOf, List.map_cons]
      simp only [keysOf] at this
      rw [this]

theorem lookup_map_const_of_mem {β γ : Type} {l : List (Node × β)} {k : Node} (x : γ)
    (h : k ∈ keysOf l) :
    lookup (l.map (fun p => (p.1, x))) k = some x := by
  induction l with
  | nil => simp [keysOf] at h
  | cons p rest ih =>
    by_cases hk : p.1 = k
    · simp [lookup, hk]
    · have : k ∈ keysOf rest := by
        simp only [keysOf, List.map_cons, List.mem_cons] at h
        rcases h with h | h
        · exact absurd h.symm hk
        · exact h
      simp [lookup, hk, ih this]

theorem lookup_map_const_of_not_mem {β γ : Type} {l : List (Node × β)} {k : Node} (x : γ)
    (h : k ∉ keysOf l) :
    lookup (l.map (fun p => (p.1, x))) k = none := by
  induction l with
  | nil => simp [lookup]
  | cons p rest ih =>
    have hk : p.1 ≠ k := by
      intro hh
      exact h (by simp [keysOf, hh])
    have hrest : k ∉ keysOf rest := by
      intro hh
      apply h
      have hcons : keysOf (p :: rest) = p.1 :: keysOf rest := rfl
      rw [hcons]
      exact List.mem_cons_of_mem _ hh
    simp [lookup, hk, ih hrest]

theorem keysOf_map_const {β γ : Type} (l : List (Node × β)) (x : γ) :
    keysOf (l.map (fun p => (p.1, x))) = keysOf l := by
  induction l with
  | nil => rfl
  | cons p rest ih =>
    simp only [keysOf, List.map_cons, List.cons.injEq] at ih ⊢
    exact ⟨trivial, ih⟩

theorem lookup_nodup_of_mem {β : Type} {l : List (Node × β)} {k : Node} {v : β} :
    (k, v) ∈ l → (keysOf l).Nodup → lookup l k = some v := by
  induction l with
  | nil =>
    intro h _
    simp at h
  | cons p rest ih =>
    intro h hd
    have hd2 : p.1 ∉ keysOf rest ∧ (keysOf rest).Nodup := by
      have : keysOf (p :: rest) = p.1 :: keysOf rest := rfl
      rw [this, List.nodup_cons] at hd
      exact hd
    rcases List.mem_cons.mp h with h | h
    · rw [← h]
      simp [lookup]
    · have hk : p.1 ≠ k := by
        intro hh
        apply hd2.1
        rw [hh]
        exact List.mem_map_of_mem Prod.fst h
      simp [lookup, hk, ih h hd2.2]

theorem length_keysOf {β : Type} (l : List (Node × β)) : (keysOf l).length = l.length :=
  List.length_map l Prod.fst

/-! Index lemmas for the visited list. -/

theorem idxOf_lt_length {l : List Node} {a : Node} (h : a ∈ l) : idxOf l a < l.length := by
  induction l with
  | nil => simp at h
  | cons x xs ih =>
    by_cases hx : x = a
    · simp [idxOf, hx]
    · have hm : a ∈ xs := by
        rcases List.mem_cons.mp h with h | h
        · exact absurd h.symm hx
        · exact h
      have := ih hm
      simp only [idxOf, if_neg hx, List.length_cons]
      omega

theorem idxOf_append_left {l l' : List Node} {a : Node} (h : a ∈ l) :
    idxOf (l ++ l') a = idxOf l a := by
  induction l with
  | nil => simp at h
  | cons x xs ih =>
    by_cases hx : x = a
    · simp [idxOf, hx]
    · have : a ∈ xs := by
        rcases List.mem_cons.mp h with h | h
        · exact absurd h.symm hx
        · exact h
      simp [idxOf, hx, ih this]

theorem idxOf_append_self {l : List Node} {a : Node} (h : a ∉ l) :
    idxOf (l ++ [a]) a = l.length := by
  induction l with
  | nil => simp [idxOf]
  | cons x xs ih =>
    have hx : x ≠ a := fun hh => h (by simp [hh])
    have : a ∉ xs := fun hh => h (by simp [hh])
    simp [idxOf, hx, ih this]

/-! Heap lemmas. -/

theorem minEntry_fst_le_left (p q : Int × Node) : (minEntry p q).1 ≤ p.1 := by
  unfold minEntry
  by_cases h : p.1 < q.1 ∨ (p.1 = q.1 ∧ p.2 ≤ q.2)
  · simp [h]
  · rw [if_neg h]
    push_neg at h
    exact h.1

theorem minEntry_fst_le_right (p q : Int × Node) : (minEntry p q).1 ≤ q.1 := by
  unfold minEntry
  by_cases h : p.1 < q.1 ∨ (p.1 = q.1 ∧ p.2 ≤ q.2)
  · rw [if_pos h]
    rcases h with h | h
    · exact le_of_lt h
    · exact le_of_eq h.1
  · simp [h]

theorem minEntry_eq_or (p q : Int × Node) : minEntry p q = p ∨ minEntry p q = q := by
  unfold minEntry
  by_cases h : p.1 < q.1 ∨ (p.1 = q.1 ∧ p.2 ≤ q.2)
  · simp [h]
  · simp [h]

theorem foldl_minEntry_mem (xs : List (Int × Node)) (x : Int × Node) :
    xs.foldl minEntry x ∈ x :: xs := by
  induction xs generalizing x with
  | nil => simp
  | cons y ys ih =>
    rw [List.foldl_cons]
    have hmem := ih (minEntry x y)
    rcases List.mem_cons.mp hmem with hh | hh
    · rw [hh]
      rcases minEntry_eq_or x y with h | h <;> rw [h] <;> simp
    · simp [hh]

theorem foldl_minEntry_le (xs : List (Int × Node)) (x : Int × Node) :
    (xs.foldl minEntry x).1 ≤ x.1 ∧ ∀ y ∈ xs, (xs.foldl minEntry x).1 ≤ y.1 := by
  induction xs generalizing x with
  | nil => simp
  | cons y ys ih =>
    rw [List.foldl_cons]
    obtain ⟨h1, h2⟩ := ih (minEntry x y)
    refine ⟨h1.trans (minEntry_fst_le_left x y), ?_⟩
    intro z hz
    rcases List.mem_cons.mp hz with hh | hh
    · rw [hh]
      exact h1.trans (minEntry_fst_le_right x y)
    · exact h2 z hh

theorem heapPop_eq_none_iff (l : List (Int × Node)) : heapPop l = none ↔ l = [] := by
  cases l <;> simp [heapPop]

theorem heapPop_spec {l : List (Int × Node)} {m : Int × Node} {rest : List (Int × Node)}
    (h : heapPop l = some (m, rest)) :
    m ∈ l ∧ rest = l.erase m ∧ ∀ y ∈ l, m.1 ≤ y.1 := by
  cases l with
  | nil => simp [heapPop] at h
  | cons x xs =>
    simp only [heapPop, Option.some.injEq, Prod.mk.injEq] at h
    obtain ⟨hm, hrest⟩ := h
    subst hm
    refine ⟨foldl_minEntry_mem xs x, hrest.symm, ?_⟩
    intro y hy
    obtain ⟨h1, h2⟩ := foldl_minEntry_le xs x
    rcases List.mem_cons.mp hy with hh | hh
    · subst hh; exact h1
    · exact h2 y hh

end Dij

namespace Dij

/-! Walk lemmas. -/

theorem edgeW_nonneg {g : Graph} (hnn : NonnegW g) {u v : Node} {w : Int}
    (h : edgeW g u v = some w) : 0 ≤ w := by
  unfold edgeW at h
  cases hg : lookup g u with
  | none => rw [hg] at h; simp at h
  | some adj =>
    rw [hg] at h
    exact hnn (u, adj) (lookup_mem hg) (v, w) (lookup_mem h)

theorem endOf_append (l1 l2 : List Node) : ∀ u, endOf u (l1 ++ l2) = endOf (endOf u l1) l2 := by
  induction l1 with
  | nil => intro u; rfl
  | cons v rest ih => intro u; simp only [List.cons_append, endOf]; exact ih v

theorem costOfWalk_nonneg {g : Graph} (hnn : NonnegW g) :
    ∀ (l : List Node) (u : Node) (c : Int), costOfWalk g u l = some c → 0 ≤ c := by
  intro l
  induction l with
  | nil =>
    intro u c h
    simp only [costOfWalk, Option.some.injEq] at h
    omega
  | cons v rest ih =>
    intro u c h
    cases he : edgeW g u v with
    | none => simp [costOfWalk, he] at h
    | some w =>
      cases hc : costOfWalk g v rest with
      | none => simp [costOfWalk, he, hc] at h
      | some c' =>
        simp only [costOfWalk, he, hc, Option.some.injEq] at h
        have h1 := edgeW_nonneg hnn he
        have h2 := ih v c' hc
        omega

theorem costOfWalk_append_some {g : Graph} :
    ∀ (l1 : List Node) (u : Node) {a b : Int} (l2 : List Node),
    costOfWalk g u l1 = some a → costOfWalk g (endOf u l1) l2 = some b →
    costOfWalk g u (l1 ++ l2) = some (a + b) := by
  intro l1
  induction l1 with
  | nil =>
    intro u a b l2 h1 h2
    simp only [costOfWalk, Option.some.injEq] at h1
    simp only [List.nil_append, endOf] at h2 ⊢
    rw [h2, ← h1]
    simp
  | cons v rest ih =>
    intro u a b l2 h1 h2
    cases he : edgeW g u v with
    | none => simp [costOfWalk, he] at h1
    | some w =>
      cases hc : costOfWalk g v rest with
      | none => simp [costOfWalk, he, hc] at h1
      | some c' =>
        simp only [costOfWalk, he, hc, Option.some.injEq] at h1
        simp only [endOf] at h2
        have hrec := ih v l2 hc h2
        have harith : w + (c' + b) = a + b := by omega
        simp only [List.cons_append, costOfWalk, List.append_eq, he, hrec, harith]

theorem costOfWalk_append_split {g : Graph} :
    ∀ (l1 : List Node) (u : Node) {c : Int} (l2 : List Node),
    costOfWalk g u (l1 ++ l2) = some c →
    ∃ a b, costOfWalk g u l1 = some a ∧ costOfWalk g (endOf u l1) l2 = some b ∧ c = a + b := by
  intro l1
  induction l1 with
  | nil =>
    intro u c l2 h
    exact ⟨0, c, rfl, h, by omega⟩
  | cons v rest ih =>
    intro u c l2 h
    simp only [List.cons_append] at h
    cases he : edgeW g u v with
    | none => simp [costOfWalk, he] at h
    | some w =>
      cases hc : costOfWalk g v (rest ++ l2) with
      | none => simp [costOfWalk, he, hc] at h
      | some c' =>
        simp only [costOfWalk, he, hc, Option.some.injEq] at h
        obtain ⟨a, b, ha, hb, hab⟩ := ih v l2 hc
        refine ⟨w + a, b, ?_, ?_, ?_⟩
        · simp [costOfWalk, he, ha]
        · simpa [endOf] using hb
        · omega

theorem costOfWalk_singleton (g : Graph) (x y : Node) :
    costOfWalk g x [y] = edgeW g x y := by
  cases h : edgeW g x y <;> simp [costOfWalk, h]

theorem not_nodup_split :
    ∀ l : List Node, ¬ l.Nodup → ∃ a l1 l2 l3, l = l1 ++ a :: (l2 ++ a :: l3) := by
  intro l
  induction l with
  | nil => intro h; exact absurd List.nodup_nil h
  | cons x xs ih =>
    intro h
    by_cases hx : x ∈ xs
    · obtain ⟨s, t, hst⟩ := List.append_of_mem hx
      exact ⟨x, [], s, t, by rw [hst]; rfl⟩
    · have hxs : ¬ xs.Nodup := by
        intro hn
        exact h (List.nodup_cons.mpr ⟨hx, hn⟩)
      obtain ⟨a, l1, l2, l3, hl⟩ := ih hxs
      exact ⟨a, x :: l1, l2, l3, by rw [hl]; rfl⟩

theorem walk_shorten {g : Graph} (hnn : NonnegW g) :
    ∀ (n : Nat) (l : List Node) (u : Node) (c : Int), l.length ≤ n →
    costOfWalk g u l = some c →
    ∃ l' c', costOfWalk g u l' = some c' ∧ endOf u l' = endOf u l ∧
      (u :: l').Nodup ∧ c' ≤ c := by
  intro n
  induction n with
  | zero =>
    intro l u c hlen hc
    have : l = [] := List.eq_nil_of_length_eq_zero (Nat.le_zero.mp hlen)
    subst this
    simp only [costOfWalk, Option.some.injEq] at hc
    exact ⟨[], c, by simp [costOfWalk, hc], rfl, by simp, le_refl c⟩
  | succ n ih =>
    intro l u c hlen hc
    by_cases hdup : (u :: l).Nodup
    · exact ⟨l, c, hc, rfl, hdup, le_refl c⟩
    · by_cases hu : u ∈ l
      · obtain ⟨s, t, hst⟩ := List.append_of_mem hu
        subst hst
        have hre : s ++ u :: t = (s ++ [u]) ++ t := by simp
        rw [hre] at hc
        obtain ⟨a, b, ha, hb, hab⟩ := costOfWalk_append_split (s ++ [u]) u t hc
        have hendsu : endOf u (s ++ [u]) = u := by rw [endOf_append]; rfl
        rw [hendsu] at hb
        have ha0 : 0 ≤ a := costOfWalk_nonneg hnn _ _ _ ha
        have hlt : t.length ≤ n := by
          rw [hre] at hlen
          simp only [List.length_append, List.length_cons] at hlen ⊢
          omega
        obtain ⟨l', c', hc', hend', hnd', hle'⟩ := ih t u b hlt hb
        refine ⟨l', c', hc', ?_, hnd', by omega⟩
        calc endOf u l' = endOf u t := hend'
          _ = endOf u (s ++ u :: t) := by
              rw [hre, endOf_append, hendsu]
      · have hln : ¬ l.Nodup := by
          intro hn
          exact hdup (List.nodup_cons.mpr ⟨hu, hn⟩)
        obtain ⟨a, l1, l2, l3, hl⟩ := not_nodup_split l hln
        subst hl
        have hre : l1 ++ a :: (l2 ++ a :: l3) = (l1 ++ [a]) ++ ((l2 ++ [a]) ++ l3) := by
          simp
        rw [hre] at hc
        obtain ⟨cA, cRest, hA, hRest, hcsum⟩ := costOfWalk_append_split (l1 ++ [a]) u _ hc
        have hendA : endOf u (l1 ++ [a]) = a := by rw [endOf_append]; rfl
        rw [hendA] at hRest
        obtain ⟨cB, c3, hB, h3, hsum2⟩ := costOfWalk_append_split (l2 ++ [a]) a l3 hRest
        have hendB : endOf a (l2 ++ [a]) = a := by rw [endOf_append]; rfl
        rw [hendB] at h3
        have hB0 : 0 ≤ cB := costOfWalk_nonneg hnn _ _ _ hB
        have hnew : costOfWalk g u ((l1 ++ [a]) ++ l3) = some (cA + c3) :=
          costOfWalk_append_some (l1 ++ [a]) u l3 hA (by rw [hendA]; exact h3)
        have hlennew : ((l1 ++ [a]) ++ l3).length ≤ n := by
          rw [hre] at hlen
          simp only [List.length_append, List.length_cons] at hlen ⊢
          omega
        obtain ⟨l', c', hc', hend', hnd', hle'⟩ := ih ((l1 ++ [a]) ++ l3) u (cA + c3) hlennew hnew
        refine ⟨l', c', hc', ?_, hnd', by omega⟩
        calc endOf u l' = endOf u ((l1 ++ [a]) ++ l3) := hend'
          _ = endOf a l3 := by rw [endOf_append, hendA]
          _ = endOf u (l1 ++ a :: (l2 ++ a :: l3)) := by
              rw [hre, endOf_append, hendA, endOf_append, hendB]

/-- Cycle removal: with non-negative weights, every walk contains a simple
path with the same endpoints and no larger cost. -/
theorem walk_to_simple {g : Graph} (hnn : NonnegW g) {l : List Node} {u : Node} {c : Int}
    (hc : costOfWalk g u l = some c) :
    ∃ l' c', costOfWalk g u l' = some c' ∧ endOf u l' = endOf u l ∧
      (u :: l').Nodup ∧ c' ≤ c :=
  walk_shorten hnn l.length l u c (le_refl _) hc

end Dij

namespace Dij

/-- The loop invariant of `dijkstra`, holding at every loop entry and
(except for `Bnd` below) after every settlement. Fields that need
non-negative weights, duplicate-free neighbor dictionaries, or a source
that is a graph key carry that requirement as a guard, so the invariant
itself is preserved unconditionally along successful execution. -/
structure Inv (g : Graph) (s : Node) (m : Bool) (st : DState) : Prop where
  visNodup : st.visitados.Nodup
  colaDom : ∀ e ∈ st.cola, ∃ c, lookup st.distancias e.2 = some (some c) ∧ c ≤ e.1
  witness : ∀ v c, v ∉ st.visitados → lookup st.distancias v = some (some c) → (c, v) ∈ st.cola
  visFinite : ∀ v ∈ st.visitados, ∃ c, lookup st.distancias v = some (some c)
  traceOff : m = false → st.trace = []
  traceNodos : m = true → st.trace.map StepRecord.nodo = st.visitados
  traceDist : ∀ r ∈ st.trace, lookup st.distancias r.nodo = some (some r.dist)
  traceSnap : ∀ l1 r l2, st.trace = l1 ++ r :: l2 → ∀ r' ∈ l1 ++ [r],
      lookup r.snapshot r'.nodo = some (some r'.dist)
  prevVis : ∀ v w, lookup st.anterior v = some (some w) → w ∈ st.visitados ∧
      (v ∈ st.visitados → idxOf st.visitados w < idxOf st.visitados v)
  prevFinite : ∀ v w, lookup st.anterior v = some (some w) →
      ∃ c, lookup st.distancias v = some (some c)
  distWalk : AdjWF g → ∀ v c, lookup st.distancias v = some (some c) →
      ∃ l, costOfWalk g s l = some c ∧ endOf s l = v
  colaWalk : AdjWF g → ∀ e ∈ st.cola, ∃ l, costOfWalk g s l = some e.1 ∧ endOf s l = e.2
  distS : NonnegW g → lookup st.distancias s = some (some 0)
  prevS : NonnegW g → s ∈ keysOf g → lookup st.anterior s = some none
  colaNonneg : NonnegW g → ∀ e ∈ st.cola, 0 ≤ e.1
  settledOpt : NonnegW g → ∀ v ∈ st.visitados, ∀ c, lookup st.distancias v = some (some c) →
      ∀ l c', costOfWalk g s l = some c' → endOf s l = v → c ≤ c'
  settleMono : NonnegW g → ∀ e ∈ st.cola, ∀ v ∈ st.visitados, ∀ cv,
      lookup st.distancias v = some (some cv) → cv ≤ e.1
  tracePair : NonnegW g → List.Pairwise (· ≤ ·) (st.trace.map StepRecord.dist)
  distKeys : s ∈ keysOf g → keysOf st.distancias = keysOf g
  prevKeys : s ∈ keysOf g → keysOf st.anterior = keysOf g
  visKeys : s ∈ keysOf g → ∀ v ∈ st.visitados, v ∈ keysOf g

/-- Boundary property: every edge out of a settled node into an unsettled
one has been relaxed. It holds at loop entry but not between settling a
node and relaxing its edges, so it is tracked separately from `Inv`. -/
def BndOn (g : Graph) (xs : List Node) (st : DState) : Prop :=
  ∀ x ∈ xs, ∀ adj, lookup g x = some adj → ∀ e ∈ adj, e.1 ∉ st.visitados →
    ∀ cx, lookup st.distancias x = some (some cx) →
      ∃ cy, lookup st.distancias e.1 = some (some cy) ∧ cy ≤ cx + e.2

/-- Boundary property over the whole visited set. -/
def Bnd (g : Graph) (st : DState) : Prop := BndOn g st.visitados st

/-- Exhaustive case analysis of one relaxation step. -/
theorem relaxOne_split (d : Int) (u : Node) (st : DState) (e : Node × Int) :
    (e.1 ∈ st.visitados ∧ relaxOne d u st e = .ok st) ∨
    (e.1 ∉ st.visitados ∧ lookup st.distancias e.1 = none ∧
      relaxOne d u st e = .error .keyError) ∨
    (e.1 ∉ st.visitados ∧ (∃ c, lookup st.distancias e.1 = some (some c) ∧ ¬ (d + e.2 < c)) ∧
      relaxOne d u st e = .ok st) ∨
    (e.1 ∉ st.visitados ∧ (∃ dv, lookup st.distancias e.1 = some dv ∧ ltOpt (d + e.2) dv = true) ∧
      relaxOne d u st e = .ok (relaxUpd d u st e)) := by
  by_cases hv : e.1 ∈ st.visitados
  · left
    exact ⟨hv, by simp [relaxOne, hv]⟩
  · obtain ⟨o, ho⟩ : ∃ o, lookup st.distancias e.1 = o := ⟨_, rfl⟩
    cases o with
    | none =>
      right; left
      exact ⟨hv, ho, by simp [relaxOne, hv, ho]⟩
    | some dv =>
      by_cases hlt : ltOpt (d + e.2) dv = true
      · right; right; right
        exact ⟨hv, ⟨dv, ho, hlt⟩, by simp [relaxOne, hv, ho, hlt]⟩
      · right; right; left
        refine ⟨hv, ?_, by simp [relaxOne, hv, ho, hlt]⟩
        cases dv with
        | none => simp [ltOpt] at hlt
        | some c =>
          refine ⟨c, ho, ?_⟩
          simpa [ltOpt] using hlt

/-- Facts relating the state before and after relaxing some edges of the
freshly settled node `u` with confirmed distance `d`. -/
structure RPost (g : Graph) (s : Node) (m : Bool) (u : Node) (d : Int) (st st' : DState) :
    Prop where
  inv : Inv g s m st'
  vis : st'.visitados = st.visitados
  paso : st'.paso = st.paso
  trace : st'.trace = st.trace
  distVis : ∀ v ∈ st.visitados, lookup st'.distancias v = lookup st.distancias v
  prevVisEq : ∀ v ∈ st.visitados, lookup st'.anterior v = lookup st.anterior v
  decrease : ∀ v c, lookup st.distancias v = some (some c) →
      ∃ c', lookup st'.distancias v = some (some c') ∧ c' ≤ c
  distU : lookup st'.distancias u = some (some d)
  maxle : NonnegW g → ∀ v ∈ st'.visitados, ∀ cv,
      lookup st'.distancias v = some (some cv) → cv ≤ d

/-- `RPost` composes along successive relaxations. -/
theorem RPost.comp {g : Graph} {s : Node} {m : Bool} {u : Node} {d : Int}
    {st st1 st2 : DState} (h1 : RPost g s m u d st st1) (h2 : RPost g s m u d st1 st2) :
    RPost g s m u d st st2 where
  inv := h2.inv
  vis := h2.vis.trans h1.vis
  paso := h2.paso.trans h1.paso
  trace := h2.trace.trans h1.trace
  distVis := by
    intro v hv
    rw [h2.distVis v (by rw [h1.vis]; exact hv), h1.distVis v hv]
  prevVisEq := by
    intro v hv
    rw [h2.prevVisEq v (by rw [h1.vis]; exact hv), h1.prevVisEq v hv]
  decrease := by
    intro v c hc
    obtain ⟨c1, hc1, hle1⟩ := h1.decrease v c hc
    obtain ⟨c2, hc2, hle2⟩ := h2.decrease v c1 hc1
    exact ⟨c2, hc2, hle2.trans hle1⟩
  distU := h2.distU
  maxle := h2.maxle

end Dij

namespace Dij

@[simp] theorem relaxUpd_distancias (d : Int) (u : Node) (st : DState) (e : Node × Int) :
    (relaxUpd d u st e).distancias = setd st.distancias e.1 (some (d + e.2)) := rfl

@[simp] theorem relaxUpd_anterior (d : Int) (u : Node) (st : DState) (e : Node × Int) :
    (relaxUpd d u st e).anterior = setd st.anterior e.1 (some u) := rfl

@[simp] theorem relaxUpd_cola (d : Int) (u : Node) (st : DState) (e : Node × Int) :
    (relaxUpd d u st e).cola = st.cola ++ [(d + e.2, e.1)] := rfl

@[simp] theorem relaxUpd_visitados (d : Int) (u : Node) (st : DState) (e : Node × Int) :
    (relaxUpd d u st e).visitados = st.visitados := rfl

@[simp] theorem relaxUpd_paso (d : Int) (u : Node) (st : DState) (e : Node × Int) :
    (relaxUpd d u st e).paso = st.paso := rfl

@[simp] theorem relaxUpd_trace (d : Int) (u : Node) (st : DState) (e : Node × Int) :
    (relaxUpd d u st e).trace = st.trace := rfl

/-- The trivial `RPost` for an unchanged state. -/
theorem RPost.of_eq {g : Graph} {s : Node} {m : Bool} {u : Node} {d : Int} {st : DState}
    (inv : Inv g s m st)
    (hdu : lookup st.distancias u = some (some d))
    (hmax : NonnegW g → ∀ v ∈ st.visitados, ∀ cv,
      lookup st.distancias v = some (some cv) → cv ≤ d) :
    RPost g s m u d st st where
  inv := inv
  vis := rfl
  paso := rfl
  trace := rfl
  distVis := fun _ _ => rfl
  prevVisEq := fun _ _ => rfl
  decrease := fun _ c hc => ⟨c, hc, le_refl c⟩
  distU := hdu
  maxle := hmax

/-- Preservation of the invariant across the relaxation of a single edge
of the settled node `u`, together with the bookkeeping `RPost` facts and
the relaxedness of the processed edge. -/
theorem relaxOne_pres {g : Graph} {s : Node} {m : Bool} {u : Node} {d : Int} {adj0 : Adj}
    {st st' : DState} {e : Node × Int}
    (hadjL : lookup g u = some adj0)
    (he : e ∈ adj0)
    (hrun : relaxOne d u st e = .ok st')
    (hu : u ∈ st.visitados)
    (hdu : lookup st.distancias u = some (some d))
    (hwu : AdjWF g → ∃ l, costOfWalk g s l = some d ∧ endOf s l = u)
    (hd0 : NonnegW g → 0 ≤ d)
    (hmax : NonnegW g → ∀ v ∈ st.visitados, ∀ cv,
      lookup st.distancias v = some (some cv) → cv ≤ d)
    (inv : Inv g s m st) :
    RPost g s m u d st st' ∧
      (e.1 ∉ st.visitados →
        ∃ cy, lookup st'.distancias e.1 = some (some cy) ∧ cy ≤ d + e.2) := by
  have hadjmem : (u, adj0) ∈ g := lookup_mem hadjL
  have hweight : NonnegW g → 0 ≤ e.2 := fun hnn => hnn (u, adj0) hadjmem e he
  rcases relaxOne_split d u st e with ⟨hv, hok⟩ | ⟨hv, hl, hok⟩ |
    ⟨hv, ⟨c0, hl, hc0⟩, hok⟩ | ⟨hv, ⟨dv, hl, hlt⟩, hok⟩
  · rw [hok] at hrun
    injection hrun with hst
    subst hst
    exact ⟨RPost.of_eq inv hdu hmax, fun hcon => (hcon hv).elim⟩
  · rw [hok] at hrun
    exact Except.noConfusion hrun
  · rw [hok] at hrun
    injection hrun with hst
    subst hst
    exact ⟨RPost.of_eq inv hdu hmax, fun _ => ⟨c0, hl, by omega⟩⟩
  · rw [hok] at hrun
    injection hrun with hst
    subst hst
    have hdvlt : ∀ c1, dv = some c1 → d + e.2 < c1 := by
      intro c1 h1
      subst h1
      simpa [ltOpt] using hlt
    have hyu : e.1 ≠ u := fun hh => hv (hh ▸ hu)
    have hys : NonnegW g → e.1 ≠ s := by
      intro hnn hh
      have h0 : lookup st.distancias e.1 = some (some 0) := by
        rw [hh]
        exact inv.distS hnn
      rw [hl] at h0
      have hdv0 : dv = some 0 := by injection h0
      have hlt0 := hdvlt 0 hdv0
      have := hd0 hnn
      have := hweight hnn
      omega
    have hwalknew : AdjWF g → ∃ l, costOfWalk g s l = some (d + e.2) ∧ endOf s l = e.1 := by
      intro hwf
      obtain ⟨lU, hlU, hlUend⟩ := hwu hwf
      have hadjnd : (keysOf adj0).Nodup := hwf (u, adj0) hadjmem
      have hepair : ((e.1, e.2) : Node × Int) ∈ adj0 := by
        rw [Prod.mk.eta]
        exact he
      have hedge : edgeW g u e.1 = some e.2 := by
        unfold edgeW
        rw [hadjL]
        exact lookup_nodup_of_mem hepair hadjnd
      have hcost : costOfWalk g s (lU ++ [e.1]) = some (d + e.2) :=
        costOfWalk_append_some lU s [e.1] hlU
          (by rw [hlUend, costOfWalk_singleton]; exact hedge)
      refine ⟨lU ++ [e.1], hcost, ?_⟩
      rw [endOf_append, hlUend]
      rfl
    refine ⟨?_, ?_⟩
    · refine
        { inv := ?_
          vis := by simp
          paso := by simp
          trace := by simp
          distVis := ?_
          prevVisEq := ?_
          decrease := ?_
          distU := ?_
          maxle := ?_ }
      · exact
          { visNodup := by simpa using inv.visNodup
            colaDom := by
              intro e' he'
              simp only [relaxUpd_cola] at he'
              simp only [relaxUpd_distancias]
              rcases List.mem_append.mp he' with hold | hnew
              · obtain ⟨c, hcd, hcle⟩ := inv.colaDom e' hold
                by_cases hvy : e'.2 = e.1
                · have hdvc : dv = some c := by
                    rw [hvy] at hcd
                    rw [hl] at hcd
                    injection hcd
                  have hnd := hdvlt c hdvc
                  refine ⟨d + e.2, ?_, by omega⟩
                  rw [hvy]
                  exact lookup_setd_self _ _ _
                · refine ⟨c, ?_, hcle⟩
                  rw [lookup_setd_ne _ _ hvy]
                  exact hcd
              · rw [List.mem_singleton] at hnew
                subst hnew
                exact ⟨d + e.2, lookup_setd_self _ _ _, le_refl _⟩
            witness := by
              intro v c hvv hc
              simp only [relaxUpd_visitados] at hvv
              simp only [relaxUpd_distancias] at hc
              simp only [relaxUpd_cola]
              by_cases hvy : v = e.1
              · subst hvy
                rw [lookup_setd_self] at hc
                have hcc : some (d + e.2) = some c := by injection hc
                have hcc2 : d + e.2 = c := by injection hcc
                apply List.mem_append_right
                rw [hcc2]
                exact List.mem_singleton.mpr rfl
              · rw [lookup_setd_ne _ _ hvy] at hc
                exact List.mem_append_left _ (inv.witness v c hvv hc)
            visFinite := by
              intro v hvv
              simp only [relaxUpd_visitados] at hvv
              simp only [relaxUpd_distancias]
              have hvy : v ≠ e.1 := fun hh => hv (hh ▸ hvv)
              rw [lookup_setd_ne _ _ hvy]
              exact inv.visFinite v hvv
            traceOff := by
              intro hm
              simpa using inv.traceOff hm
            traceNodos := by
              intro hm
              simpa using inv.traceNodos hm
            traceDist := by
              intro r hr
              simp only [relaxUpd_trace] at hr
              simp only [relaxUpd_distancias]
              have hne : r.nodo ≠ e.1 := by
                cases m with
                | false =>
                  rw [inv.traceOff rfl] at hr
                  simp at hr
                | true =>
                  have hrv : r.nodo ∈ st.visitados := by
                    rw [← inv.traceNodos rfl]
                    exact List.mem_map_of_mem StepRecord.nodo hr
                  exact fun hh => hv (hh ▸ hrv)
              rw [lookup_setd_ne _ _ hne]
              exact inv.traceDist r hr
            traceSnap := by
              intro l1 r l2 hsplit r' hr'
              simp only [relaxUpd_trace] at hsplit
              exact inv.traceSnap l1 r l2 hsplit r' hr'
            prevVis := by
              intro v w hw
              simp only [relaxUpd_anterior] at hw
              simp only [relaxUpd_visitados]
              by_cases hvy : v = e.1
              · subst hvy
                rw [lookup_setd_self] at hw
                have hw1 : some u = some w := by injection hw
                have hw2 : u = w := by injection hw1
                subst hw2
                exact ⟨hu, fun hcon => (hv hcon).elim⟩
              · rw [lookup_setd_ne _ _ hvy] at hw
                exact inv.prevVis v w hw
            prevFinite := by
              intro v w hw
              simp only [relaxUpd_anterior] at hw
              simp only [relaxUpd_distancias]
              by_cases hvy : v = e.1
              · subst hvy
                exact ⟨d + e.2, lookup_setd_self _ _ _⟩
              · rw [lookup_setd_ne _ _ hvy] at hw
                obtain ⟨c, hc⟩ := inv.prevFinite v w hw
                refine ⟨c, ?_⟩
                rw [lookup_setd_ne _ _ hvy]
                exact hc
            distWalk := by
              intro hwf v c hc
              simp only [relaxUpd_distancias] at hc
              by_cases hvy : v = e.1
              · subst hvy
                rw [lookup_setd_self] at hc
                have hcc : some (d + e.2) = some c := by injection hc
                have hcc2 : d + e.2 = c := by injection hcc
                obtain ⟨l, hcost, hend⟩ := hwalknew hwf
                exact ⟨l, by rw [hcost, hcc2], hend⟩
              · rw [lookup_setd_ne _ _ hvy] at hc
                exact inv.distWalk hwf v c hc
            colaWalk := by
              intro hwf e' he'
              simp only [relaxUpd_cola] at he'
              rcases List.mem_append.mp he' with hold | hnew
              · exact inv.colaWalk hwf e' hold
              · rw [List.mem_singleton] at hnew
                subst hnew
                exact hwalknew hwf
            distS := by
              intro hnn
              simp only [relaxUpd_distancias]
              rw [lookup_setd_ne _ _ (fun hh => hys hnn hh.symm)]
              exact inv.distS hnn
            prevS := by
              intro hnn hs
              simp only [relaxUpd_anterior]
              rw [lookup_setd_ne _ _ (fun hh => hys hnn hh.symm)]
              exact inv.prevS hnn hs
            colaNonneg := by
              intro hnn e' he'
              simp only [relaxUpd_cola] at he'
              rcases List.mem_append.mp he' with hold | hnew
              · exact inv.colaNonneg hnn e' hold
              · rw [List.mem_singleton] at hnew
                subst hnew
                have := hd0 hnn
                have := hweight hnn
                simp only []
                omega
            settledOpt := by
              intro hnn v hvv c hc l c' hwalk hend
              simp only [relaxUpd_visitados] at hvv
              simp only [relaxUpd_distancias] at hc
              have hvy : v ≠ e.1 := fun hh => hv (hh ▸ hvv)
              rw [lookup_setd_ne _ _ hvy] at hc
              exact inv.settledOpt hnn v hvv c hc l c' hwalk hend
            settleMono := by
              intro hnn e' he' v hvv cv hcv
              simp only [relaxUpd_cola] at he'
              simp only [relaxUpd_visitados] at hvv
              simp only [relaxUpd_distancias] at hcv
              have hvy : v ≠ e.1 := fun hh => hv (hh ▸ hvv)
              rw [lookup_setd_ne _ _ hvy] at hcv
              rcases List.mem_append.mp he' with hold | hnew
              · exact inv.settleMono hnn e' hold v hvv cv hcv
              · rw [List.mem_singleton] at hnew
                subst hnew
                have h1 := hmax hnn v hvv cv hcv
                have h2 := hweight hnn
                simp only []
                omega
            tracePair := by
              intro hnn
              simpa using inv.tracePair hnn
            distKeys := by
              intro hs
              simp only [relaxUpd_distancias]
              rw [keysOf_setd_of_mem _ (lookup_some_mem_keys hl)]
              exact inv.distKeys hs
            prevKeys := by
              intro hs
              have hkey : e.1 ∈ keysOf st.anterior := by
                rw [inv.prevKeys hs, ← inv.distKeys hs]
                exact lookup_some_mem_keys hl
              simp only [relaxUpd_anterior]
              rw [keysOf_setd_of_mem _ hkey]
              exact inv.prevKeys hs
            visKeys := by
              intro hs v hvv
              simp only [relaxUpd_visitados] at hvv
              exact inv.visKeys hs v hvv }
      · intro v hvv
        have hvy : v ≠ e.1 := fun hh => hv (hh ▸ hvv)
        simp only [relaxUpd_distancias]
        rw [lookup_setd_ne _ _ hvy]
      · intro v hvv
        have hvy : v ≠ e.1 := fun hh => hv (hh ▸ hvv)
        simp only [relaxUpd_anterior]
        rw [lookup_setd_ne _ _ hvy]
      · intro v c hc
        simp only [relaxUpd_distancias]
        by_cases hvy : v = e.1
        · subst hvy
          rw [hl] at hc
          have hdvc : dv = some c := by injection hc
          have := hdvlt c hdvc
          exact ⟨d + e.2, lookup_setd_self _ _ _, by omega⟩
        · rw [lookup_setd_ne _ _ hvy]
          exact ⟨c, hc, le_refl c⟩
      · simp only [relaxUpd_distancias]
        rw [lookup_setd_ne _ _ (Ne.symm hyu)]
        exact hdu
      · intro hnn v hvv cv hcv
        simp only [relaxUpd_visitados] at hvv
        simp only [relaxUpd_distancias] at hcv
        have hvy : v ≠ e.1 := fun hh => hv (hh ▸ hvv)
        rw [lookup_setd_ne _ _ hvy] at hcv
        exact hmax hnn v hvv cv hcv
    · intro _
      simp only [relaxUpd_distancias]
      exact ⟨d + e.2, lookup_setd_self _ _ _, le_refl _⟩

end Dij

namespace Dij

/-- Preservation of the invariant across the whole relaxation loop of the
settled node `u`, plus the relaxedness of every processed edge. -/
theorem relaxAll_pres {g : Graph} {s : Node} {m : Bool} {u : Node} {d : Int} {adj0 : Adj}
    (hadjL : lookup g u = some adj0) :
    ∀ (cur : Adj) (st st' : DState), (∀ e ∈ cur, e ∈ adj0) →
    relaxAll d u st cur = .ok st' →
    u ∈ st.visitados →
    lookup st.distancias u = some (some d) →
    (AdjWF g → ∃ l, costOfWalk g s l = some d ∧ endOf s l = u) →
    (NonnegW g → 0 ≤ d) →
    (NonnegW g → ∀ v ∈ st.visitados, ∀ cv,
      lookup st.distancias v = some (some cv) → cv ≤ d) →
    Inv g s m st →
    RPost g s m u d st st' ∧
      (∀ e ∈ cur, e.1 ∉ st.visitados →
        ∃ cy, lookup st'.distancias e.1 = some (some cy) ∧ cy ≤ d + e.2) := by
  intro cur
  induction cur with
  | nil =>
    intro st st' _ hrun hu hdu _ _ hmax inv
    simp only [relaxAll] at hrun
    injection hrun with h
    subst h
    refine ⟨RPost.of_eq inv hdu hmax, ?_⟩
    intro e he
    simp at he
  | cons e rest ih =>
    intro st st' hsub hrun hu hdu hwu hd0 hmax inv
    simp only [relaxAll] at hrun
    cases h1 : relaxOne d u st e with
    | error err =>
      rw [h1] at hrun
      exact Except.noConfusion hrun
    | ok st1 =>
      rw [h1] at hrun
      obtain ⟨p1, b1⟩ :=
        relaxOne_pres hadjL (hsub e (List.mem_cons_self e rest)) h1 hu hdu hwu hd0 hmax inv
      have hu1 : u ∈ st1.visitados := by rw [p1.vis]; exact hu
      obtain ⟨p2, b2⟩ := ih st1 st'
        (fun e' he' => hsub e' (List.mem_cons_of_mem e he'))
        hrun hu1 p1.distU hwu hd0 p1.maxle p1.inv
      refine ⟨p1.comp p2, ?_⟩
      intro e' he' hnv
      rcases List.mem_cons.mp he' with hh | hmem
      · subst hh
        obtain ⟨cy, hcy, hle⟩ := b1 hnv
        obtain ⟨cy', hcy', hle'⟩ := p2.decrease e'.1 cy hcy
        exact ⟨cy', hcy', hle'.trans hle⟩
      · exact b2 e' hmem (by rw [p1.vis]; exact hnv)

/-- The boundary property survives a relaxation pass: settled distances do
not move and unsettled distances only decrease. -/
theorem BndOn_of_RPost {g : Graph} {s : Node} {m : Bool} {u : Node} {d : Int}
    {xs : List Node} {st st' : DState}
    (p : RPost g s m u d st st') (hb : BndOn g xs st)
    (hxs : ∀ x ∈ xs, x ∈ st.visitados) :
    BndOn g xs st' := by
  intro x hx adj hadj e he hne cx hcx
  have hne' : e.1 ∉ st.visitados := by rw [← p.vis]; exact hne
  have hcx' : lookup st.distancias x = some (some cx) := by
    rw [← p.distVis x (hxs x hx)]
    exact hcx
  obtain ⟨cy, hcy, hle⟩ := hb x hx adj hadj e he hne' cx hcx'
  obtain ⟨cy', hcy', hle'⟩ := p.decrease e.1 cy hcy
  exact ⟨cy', hcy', hle'.trans hle⟩

/-- Crossing lemma: when the endpoint of a walk is unsettled, the heap
still holds an entry whose key is at most the walk's cost (the entry for
the first unsettled node along the walk). -/
theorem crossing {g : Graph} {s : Node} {m : Bool} {st : DState}
    (inv : Inv g s m st) (hbnd : Bnd g st) (hnn : NonnegW g) :
    ∀ (l : List Node) (c : Int) (v : Node), costOfWalk g s l = some c → endOf s l = v →
      v ∉ st.visitados → ∃ e ∈ st.cola, e.1 ≤ c := by
  have main : ∀ (n : Nat) (l : List Node) (c : Int) (v : Node), l.length ≤ n →
      costOfWalk g s l = some c → endOf s l = v →
      v ∉ st.visitados → ∃ e ∈ st.cola, e.1 ≤ c := by
    intro n
    induction n with
    | zero =>
      intro l c v hlen hc hend hv
      have hnil : l = [] := List.eq_nil_of_length_eq_zero (Nat.le_zero.mp hlen)
      subst hnil
      simp only [costOfWalk, Option.some.injEq] at hc
      simp only [endOf] at hend
      subst hend
      refine ⟨(0, s), inv.witness s 0 hv (inv.distS hnn), by omega⟩
    | succ n ih =>
      intro l c v hlen hc hend hv
      rcases List.eq_nil_or_concat l with rfl | ⟨l0, y, rfl⟩
      · simp only [costOfWalk, Option.some.injEq] at hc
        simp only [endOf] at hend
        subst hend
        refine ⟨(0, s), inv.witness s 0 hv (inv.distS hnn), by omega⟩
      · rw [List.concat_eq_append] at hc hend hlen
        obtain ⟨a, b, ha, hb, hab⟩ := costOfWalk_append_split l0 s [y] hc
        rw [costOfWalk_singleton] at hb
        have hend2 : y = v := by
          rw [endOf_append] at hend
          exact hend
        subst hend2
        by_cases hx : endOf s l0 ∈ st.visitados
        · obtain ⟨adj, hadjx, hwb⟩ :
              ∃ adj, lookup g (endOf s l0) = some adj ∧ lookup adj y = some b := by
            unfold edgeW at hb
            cases hga : lookup g (endOf s l0) with
            | none => rw [hga] at hb; simp at hb
            | some adj => rw [hga] at hb; exact ⟨adj, rfl, hb⟩
          have hyadj : ((y, b) : Node × Int) ∈ adj := lookup_mem hwb
          obtain ⟨cx, hcx⟩ := inv.visFinite _ hx
          have hcxa : cx ≤ a := inv.settledOpt hnn _ hx cx hcx l0 a ha rfl
          obtain ⟨cy, hcy, hcyle⟩ := hbnd _ hx adj hadjx (y, b) hyadj hv cx hcx
          refine ⟨(cy, y), inv.witness y cy hv hcy, ?_⟩
          simp only
          omega
        · have hb0 := edgeW_nonneg hnn hb
          have hlen0 : l0.length ≤ n := by
            simp only [List.length_append, List.length_cons, List.length_nil] at hlen
            omega
          obtain ⟨e, hecola, hele⟩ := ih l0 a _ hlen0 ha rfl hx
          exact ⟨e, hecola, by omega⟩
  intro l c v
  exact main l.length l c v (le_refl _)

@[simp] theorem settleStep_distancias (m : Bool) (d : Int) (u : Node) (st : DState) :
    (settleStep m d u st).distancias = st.distancias := by
  cases m <;> rfl

@[simp] theorem settleStep_anterior (m : Bool) (d : Int) (u : Node) (st : DState) :
    (settleStep m d u st).anterior = st.anterior := by
  cases m <;> rfl

@[simp] theorem settleStep_cola (m : Bool) (d : Int) (u : Node) (st : DState) :
    (settleStep m d u st).cola = st.cola := by
  cases m <;> rfl

@[simp] theorem settleStep_visitados (m : Bool) (d : Int) (u : Node) (st : DState) :
    (settleStep m d u st).visitados = st.visitados ++ [u] := by
  cases m <;> rfl

@[simp] theorem settleStep_trace_false (d : Int) (u : Node) (st : DState) :
    (settleStep false d u st).trace = st.trace := rfl

@[simp] theorem settleStep_trace_true (d : Int) (u : Node) (st : DState) :
    (settleStep true d u st).trace = st.trace ++ [⟨st.paso, u, d, st.distancias⟩] := rfl

/-- Decomposition of a cons-split of a list with one appended element. -/
theorem concat_split {α : Type} (l l1 l2 : List α) (a r : α) :
    l ++ [a] = l1 ++ r :: l2 →
    (l1 = l ∧ r = a ∧ l2 = []) ∨ (∃ l2', l2 = l2' ++ [a] ∧ l = l1 ++ r :: l2') := by
  induction l1 generalizing l with
  | nil =>
    intro h
    cases l with
    | nil =>
      simp only [List.nil_append, List.cons.injEq] at h
      exact Or.inl ⟨rfl, h.1.symm, h.2.symm⟩
    | cons x l' =>
      simp only [List.cons_append, List.nil_append, List.cons.injEq] at h
      refine Or.inr ⟨l', h.2.symm, ?_⟩
      rw [h.1]
      simp
  | cons y l1' ih =>
    intro h
    cases l with
    | nil =>
      simp only [List.nil_append, List.cons_append, List.cons.injEq] at h
      have := h.2.symm
      simp at this
    | cons x l' =>
      simp only [List.cons_append, List.cons.injEq] at h
      obtain ⟨hx, hrest⟩ := h
      rcases ih l' hrest with ⟨h1, h2, h3⟩ | ⟨l2', h1, h2⟩
      · exact Or.inl ⟨by rw [hx, h1], h2, h3⟩
      · refine Or.inr ⟨l2', h1, ?_⟩
        rw [hx, h2]
        simp

end Dij

namespace Dij

/-- At the moment an unvisited node is popped, its heap key equals its
current tentative distance (the heap yields the minimum and the
distance-witness entry is present). -/
theorem settle_dist_eq {g : Graph} {s : Node} {m : Bool} {st : DState} {d : Int} {u : Node}
    {rest : List (Int × Node)}
    (hpop : heapPop st.cola = some ((d, u), rest))
    (hnv : u ∉ st.visitados) (inv : Inv g s m st) :
    lookup st.distancias u = some (some d) := by
  obtain ⟨hmem, hrestEq, hmin⟩ := heapPop_spec hpop
  obtain ⟨c, hc, hle⟩ := inv.colaDom (d, u) hmem
  have hw := inv.witness u c hnv hc
  have hdc : d ≤ c := by simpa using hmin (c, u) hw
  have hcd : c = d := le_antisymm hle hdc
  rw [hc, hcd]

/-- Everything the loop needs right after settling a freshly popped node:
the invariant at the post-settlement state, the boundary restricted to
the previously settled nodes, and the context facts for the subsequent
relaxation pass. -/
theorem settle_pres {g : Graph} {s : Node} {m : Bool} {st : DState} {d : Int} {u : Node}
    {rest : List (Int × Node)}
    (hpop : heapPop st.cola = some ((d, u), rest))
    (hnv : u ∉ st.visitados)
    (inv : Inv g s m st) (hbnd : Bnd g st) :
    Inv g s m (settleStep m d u { st with cola := rest }) ∧
    BndOn g st.visitados (settleStep m d u { st with cola := rest }) ∧
    (NonnegW g → 0 ≤ d) ∧
    (AdjWF g → ∃ l, costOfWalk g s l = some d ∧ endOf s l = u) ∧
    (NonnegW g → ∀ v ∈ st.visitados ++ [u], ∀ cv,
      lookup st.distancias v = some (some cv) → cv ≤ d) := by
  obtain ⟨hmem, hrestEq, hmin⟩ := heapPop_spec hpop
  have hdeq : lookup st.distancias u = some (some d) := settle_dist_eq hpop hnv inv
  have hd0 : NonnegW g → 0 ≤ d := fun hnn => inv.colaNonneg hnn (d, u) hmem
  have hwu : AdjWF g → ∃ l, costOfWalk g s l = some d ∧ endOf s l = u := fun hwf =>
    inv.colaWalk hwf (d, u) hmem
  have hmax : NonnegW g → ∀ v ∈ st.visitados ++ [u], ∀ cv,
      lookup st.distancias v = some (some cv) → cv ≤ d := by
    intro hnn v hv cv hcv
    rcases List.mem_append.mp hv with h | h
    · exact inv.settleMono hnn (d, u) hmem v h cv hcv
    · rw [List.mem_singleton] at h
      subst h
      rw [hdeq] at hcv
      have h1 : some d = some cv := by injection hcv
      have h2 : d = cv := by injection h1
      omega
  have hsubrest : ∀ e ∈ rest, e ∈ st.cola := by
    intro e he
    rw [hrestEq] at he
    exact List.erase_subset _ _ he
  have hrestmem : ∀ (c : Int) (v : Node), v ≠ u → (c, v) ∈ st.cola → (c, v) ∈ rest := by
    intro c v hne hmem2
    rw [hrestEq]
    exact (List.mem_erase_of_ne (fun hh => hne (congrArg Prod.snd hh))).mpr hmem2
  have huopt : NonnegW g → ∀ (l : List Node) (c' : Int),
      costOfWalk g s l = some c' → endOf s l = u → d ≤ c' := by
    intro hnn l c' hcost hend
    obtain ⟨e, hec, hele⟩ := crossing inv hbnd hnn l c' u hcost hend hnv
    have := hmin e hec
    omega
  refine ⟨?_, ?_, hd0, hwu, hmax⟩
  · exact
      { visNodup := by
          simp only [settleStep_visitados]
          rw [List.nodup_append]
          exact ⟨inv.visNodup, by simp,
            fun a ha hau => hnv (by rwa [List.mem_singleton.mp hau] at ha)⟩
        colaDom := by
          intro e he
          simp only [settleStep_cola] at he
          simp only [settleStep_distancias]
          exact inv.colaDom e (hsubrest e he)
        witness := by
          intro v c hvv hc
          simp only [settleStep_visitados] at hvv
          simp only [settleStep_distancias] at hc
          simp only [settleStep_cola]
          have hvu : v ≠ u := fun hh =>
            hvv (by rw [hh]; exact List.mem_append_right _ (by simp))
          have hvv' : v ∉ st.visitados := fun hh => hvv (List.mem_append_left _ hh)
          exact hrestmem c v hvu (inv.witness v c hvv' hc)
        visFinite := by
          intro v hv
          simp only [settleStep_visitados] at hv
          simp only [settleStep_distancias]
          rcases List.mem_append.mp hv with h | h
          · exact inv.visFinite v h
          · rw [List.mem_singleton] at h
            subst h
            exact ⟨d, hdeq⟩
        traceOff := by
          intro hm
          subst hm
          simp only [settleStep_trace_false]
          exact inv.traceOff rfl
        traceNodos := by
          intro hm
          subst hm
          simp only [settleStep_trace_true, settleStep_visitados, List.map_append]
          rw [inv.traceNodos rfl]
          rfl
        traceDist := by
          intro r hr
          simp only [settleStep_distancias]
          cases m with
          | false =>
            simp only [settleStep_trace_false] at hr
            exact inv.traceDist r hr
          | true =>
            simp only [settleStep_trace_true] at hr
            rcases List.mem_append.mp hr with h | h
            · exact inv.traceDist r h
            · rw [List.mem_singleton] at h
              subst h
              exact hdeq
        traceSnap := by
          intro l1 r l2 hsplit r' hr'
          cases m with
          | false =>
            simp only [settleStep_trace_false] at hsplit
            exact inv.traceSnap l1 r l2 hsplit r' hr'
          | true =>
            simp only [settleStep_trace_true] at hsplit
            rcases concat_split _ _ _ _ _ hsplit with ⟨h1, h2, h3⟩ | ⟨l2', h1, h2⟩
            · subst h2
              subst h1
              rcases List.mem_append.mp hr' with h | h
              · exact inv.traceDist r' h
              · rw [List.mem_singleton] at h
                subst h
                exact hdeq
            · exact inv.traceSnap l1 r l2' h2 r' hr'
        prevVis := by
          intro v w hw
          simp only [settleStep_anterior] at hw
          simp only [settleStep_visitados]
          obtain ⟨hwvis, hidx⟩ := inv.prevVis v w hw
          refine ⟨List.mem_append_left _ hwvis, ?_⟩
          intro hv2
          rcases List.mem_append.mp hv2 with h | h
          · rw [idxOf_append_left hwvis, idxOf_append_left h]
            exact hidx h
          · rw [List.mem_singleton] at h
            subst h
            rw [idxOf_append_left hwvis, idxOf_append_self hnv]
            exact idxOf_lt_length hwvis
        prevFinite := by
          intro v w hw
          simp only [settleStep_anterior] at hw
          simp only [settleStep_distancias]
          exact inv.prevFinite v w hw
        distWalk := by
          intro hwf v c hc
          simp only [settleStep_distancias] at hc
          exact inv.distWalk hwf v c hc
        colaWalk := by
          intro hwf e he
          simp only [settleStep_cola] at he
          exact inv.colaWalk hwf e (hsubrest e he)
        distS := by
          intro hnn
          simp only [settleStep_distancias]
          exact inv.distS hnn
        prevS := by
          intro hnn hs
          simp only [settleStep_anterior]
          exact inv.prevS hnn hs
        colaNonneg := by
          intro hnn e he
          simp only [settleStep_cola] at he
          exact inv.colaNonneg hnn e (hsubrest e he)
        settledOpt := by
          intro hnn v hv c hc l c' hcost hend
          simp only [settleStep_visitados] at hv
          simp only [settleStep_distancias] at hc
          rcases List.mem_append.mp hv with h | h
          · exact inv.settledOpt hnn v h c hc l c' hcost hend
          · rw [List.mem_singleton] at h
            subst h
            rw [hdeq] at hc
            have h1 : some d = some c := by injection hc
            have h2 : d = c := by injection h1
            rw [← h2]
            exact huopt hnn l c' hcost hend
        settleMono := by
          intro hnn e he v hv cv hcv
          simp only [settleStep_cola] at he
          simp only [settleStep_visitados] at hv
          simp only [settleStep_distancias] at hcv
          rcases List.mem_append.mp hv with h | h
          · exact inv.settleMono hnn e (hsubrest e he) v h cv hcv
          · rw [List.mem_singleton] at h
            subst h
            rw [hdeq] at hcv
            have h1 : some d = some cv := by injection hcv
            have h2 : d = cv := by injection h1
            have := hmin e (hsubrest e he)
            omega
        tracePair := by
          intro hnn
          cases m with
          | false =>
            simp only [settleStep_trace_false]
            exact inv.tracePair hnn
          | true =>
            simp only [settleStep_trace_true, List.map_append]
            rw [List.pairwise_append]
            refine ⟨inv.tracePair hnn, by simp, ?_⟩
            intro x hx y hy
            simp only [List.map_cons, List.map_nil, List.mem_singleton] at hy
            rw [hy]
            obtain ⟨r', hr', hxr⟩ := List.mem_map.mp hx
            rw [← hxr]
            have hrd := inv.traceDist r' hr'
            have hrv : r'.nodo ∈ st.visitados := by
              rw [← inv.traceNodos rfl]
              exact List.mem_map_of_mem StepRecord.nodo hr'
            exact inv.settleMono hnn (d, u) hmem r'.nodo hrv r'.dist hrd
        distKeys := by
          intro hs
          simp only [settleStep_distancias]
          exact inv.distKeys hs
        prevKeys := by
          intro hs
          simp only [settleStep_anterior]
          exact inv.prevKeys hs
        visKeys := by
          intro hs v hv
          simp only [settleStep_visitados] at hv
          rcases List.mem_append.mp hv with h | h
          · exact inv.visKeys hs v h
          · rw [List.mem_singleton] at h
            rw [h]
            have hins : u ∈ keysOf st.distancias := lookup_some_mem_keys hdeq
            rwa [inv.distKeys hs] at hins }
  · intro x hx adj hadj e he hne cx hcx
    simp only [settleStep_visitados] at hne
    simp only [settleStep_distancias] at hcx ⊢
    have hne' : e.1 ∉ st.visitados := fun hh => hne (List.mem_append_left _ hh)
    exact hbnd x hx adj hadj e he hne' cx hcx

end Dij

namespace Dij

/-- Discarding a stale heap entry preserves the invariant and boundary. -/
theorem skip_pres {g : Graph} {s : Node} {m : Bool} {st : DState} {d : Int} {u : Node}
    {rest : List (Int × Node)}
    (hpop : heapPop st.cola = some ((d, u), rest))
    (hv : u ∈ st.visitados)
    (inv : Inv g s m st) (hbnd : Bnd g st) :
    Inv g s m { st with cola := rest } ∧ Bnd g { st with cola := rest } := by
  obtain ⟨hmem, hrestEq, hmin⟩ := heapPop_spec hpop
  have hsubrest : ∀ e ∈ rest, e ∈ st.cola := by
    intro e he
    rw [hrestEq] at he
    exact List.erase_subset _ _ he
  have hrestmem : ∀ (c : Int) (v : Node), v ≠ u → (c, v) ∈ st.cola → (c, v) ∈ rest := by
    intro c v hne hmem2
    rw [hrestEq]
    exact (List.mem_erase_of_ne (fun hh => hne (congrArg Prod.snd hh))).mpr hmem2
  refine ⟨?_, hbnd⟩
  exact
    { visNodup := inv.visNodup
      colaDom := fun e he => inv.colaDom e (hsubrest e he)
      witness := fun v c hvv hc =>
        hrestmem c v (fun hh => hvv (hh ▸ hv)) (inv.witness v c hvv hc)
      visFinite := inv.visFinite
      traceOff := inv.traceOff
      traceNodos := inv.traceNodos
      traceDist := inv.traceDist
      traceSnap := inv.traceSnap
      prevVis := inv.prevVis
      prevFinite := inv.prevFinite
      distWalk := inv.distWalk
      colaWalk := fun hwf e he => inv.colaWalk hwf e (hsubrest e he)
      distS := inv.distS
      prevS := inv.prevS
      colaNonneg := fun hnn e he => inv.colaNonneg hnn e (hsubrest e he)
      settledOpt := inv.settledOpt
      settleMono := fun hnn e he => inv.settleMono hnn e (hsubrest e he)
      tracePair := inv.tracePair
      distKeys := inv.distKeys
      prevKeys := inv.prevKeys
      visKeys := inv.visKeys }

theorem relaxOne_cola_len {d : Int} {u : Node} {st st' : DState} {e : Node × Int}
    (h : relaxOne d u st e = .ok st') : st'.cola.length ≤ st.cola.length + 1 := by
  rcases relaxOne_split d u st e with ⟨_, hok⟩ | ⟨_, _, hok⟩ | ⟨_, _, hok⟩ | ⟨_, _, hok⟩ <;>
    rw [hok] at h
  · injection h with hh; rw [← hh]; omega
  · exact Except.noConfusion h
  · injection h with hh; rw [← hh]; omega
  · injection h with hh
    rw [← hh]
    simp only [relaxUpd_cola, List.length_append, List.length_singleton]
    omega

theorem relaxAll_cola_len {d : Int} {u : Node} :
    ∀ (cur : Adj) (st st' : DState), relaxAll d u st cur = .ok st' →
    st'.cola.length ≤ st.cola.length + cur.length := by
  intro cur
  induction cur with
  | nil =>
    intro st st' h
    simp only [relaxAll] at h
    injection h with hh
    rw [← hh]
    omega
  | cons e rest ih =>
    intro st st' h
    simp only [relaxAll] at h
    cases h1 : relaxOne d u st e with
    | error err =>
      rw [h1] at h
      exact Except.noConfusion h
    | ok st1 =>
      rw [h1] at h
      have := ih st1 st' h
      have := relaxOne_cola_len h1
      simp only [List.length_cons]
      omega

/-- One full settle-and-relax iteration preserves the invariant and the
boundary, grows the visited list by the settled node, and bounds the heap
growth by the out-degree. -/
theorem step_pres {g : Graph} {s : Node} {m : Bool} {st : DState} {d : Int} {u : Node}
    {rest : List (Int × Node)} {adj : Adj} {st3 : DState}
    (hpop : heapPop st.cola = some ((d, u), rest))
    (hnv : u ∉ st.visitados)
    (hadjL : lookup g u = some adj)
    (hrelax : relaxAll d u (settleStep m d u { st with cola := rest }) adj = .ok st3)
    (inv : Inv g s m st) (hbnd : Bnd g st) :
    Inv g s m st3 ∧ Bnd g st3 ∧ st3.visitados = st.visitados ++ [u] ∧
      st3.cola.length ≤ rest.length + adj.length := by
  obtain ⟨inv2, hbnd2, hd0, hwu, hmax⟩ := settle_pres hpop hnv inv hbnd
  have hu2 : u ∈ (settleStep m d u { st with cola := rest }).visitados := by
    simp only [settleStep_visitados]
    exact List.mem_append_right _ (by simp)
  have hdeq : lookup st.distancias u = some (some d) := settle_dist_eq hpop hnv inv
  have hdu2 : lookup (settleStep m d u { st with cola := rest }).distancias u
      = some (some d) := by
    simp only [settleStep_distancias]
    exact hdeq
  have hmax2 : NonnegW g → ∀ v ∈ (settleStep m d u { st with cola := rest }).visitados,
      ∀ cv, lookup (settleStep m d u { st with cola := rest }).distancias v
        = some (some cv) → cv ≤ d := by
    intro hnn v hv cv hcv
    simp only [settleStep_visitados] at hv
    simp only [settleStep_distancias] at hcv
    exact hmax hnn v hv cv hcv
  obtain ⟨p, hb⟩ := relaxAll_pres hadjL adj _ st3 (fun e he => he) hrelax hu2 hdu2 hwu hd0
    hmax2 inv2
  have hvis3 : st3.visitados = st.visitados ++ [u] := by
    rw [p.vis]
    simp only [settleStep_visitados]
  refine ⟨p.inv, ?_, hvis3, ?_⟩
  · intro x hx adj' hadj' e he hne cx hcx
    rw [hvis3] at hx
    rcases List.mem_append.mp hx with hxold | hxu
    · have hBon : BndOn g st.visitados st3 := by
        refine BndOn_of_RPost p hbnd2 ?_
        intro z hz
        simp only [settleStep_visitados]
        exact List.mem_append_left _ hz
      exact hBon x hxold adj' hadj' e he hne cx hcx
    · rw [List.mem_singleton] at hxu
      have hadj2 : adj' = adj := by
        rw [hxu, hadjL] at hadj'
        injection hadj' with hh
        exact hh.symm
      subst hadj2
      have hdu3 := p.distU
      have hcxu : lookup st3.distancias u = some (some cx) := by
        rw [← hxu]
        exact hcx
      rw [hdu3] at hcxu
      have h1 : some d = some cx := by injection hcxu
      have h2 : d = cx := by injection h1
      have hne2 : e.1 ∉ (settleStep m d u { st with cola := rest }).visitados := by
        rw [← p.vis]
        exact hne
      obtain ⟨cy, hcy, hcyle⟩ := hb e he hne2
      exact ⟨cy, hcy, by omega⟩
  · have hlen := relaxAll_cola_len adj _ st3 hrelax
    have hc2 : (settleStep m d u { st with cola := rest }).cola = rest := by
      simp only [settleStep_cola]
    rw [hc2] at hlen
    exact hlen

end Dij

namespace Dij

theorem dijkstraLoop_zero (g : Graph) (destino : Option Node) (m : Bool) (st : DState) :
    dijkstraLoop g destino m 0 st = .error .noFuel := rfl

theorem dijkstraLoop_succ (g : Graph) (destino : Option Node) (m : Bool) (fuel : Nat)
    (st : DState) :
    dijkstraLoop g destino m (fuel + 1) st =
      match heapPop st.cola with
      | none => .ok st
      | some (du, rest) =>
        if du.2 ∈ st.visitados then dijkstraLoop g destino m fuel { st with cola := rest }
        else
          if destino = some du.2 then .ok (settleStep m du.1 du.2 { st with cola := rest })
          else
            match lookup g du.2 with
            | none => .error .keyError
            | some adj =>
              match relaxAll du.1 du.2 (settleStep m du.1 du.2 { st with cola := rest }) adj with
              | .error e => .error e
              | .ok st3 => dijkstraLoop g destino m fuel st3 := rfl

/-- The invariant and, for a full run without early exit, the boundary and
heap emptiness, carried along any successful execution of the loop. -/
theorem loop_pres {g : Graph} {s : Node} {destino : Option Node} {m : Bool} :
    ∀ (fuel : Nat) (st st' : DState),
    dijkstraLoop g destino m fuel st = .ok st' →
    Inv g s m st → Bnd g st →
    Inv g s m st' ∧ (destino = none → Bnd g st' ∧ st'.cola = []) := by
  intro fuel
  induction fuel with
  | zero =>
    intro st st' hrun _ _
    rw [dijkstraLoop_zero] at hrun
    exact Except.noConfusion hrun
  | succ fuel ih =>
    intro st st' hrun inv hbnd
    rw [dijkstraLoop_succ] at hrun
    cases hpop : heapPop st.cola with
    | none =>
      simp only [hpop] at hrun
      injection hrun with hh
      rw [← hh]
      exact ⟨inv, fun _ => ⟨hbnd, (heapPop_eq_none_iff _).mp hpop⟩⟩
    | some pr =>
      obtain ⟨⟨d, u⟩, rest⟩ := pr
      simp only [hpop] at hrun
      by_cases hv : u ∈ st.visitados
      · rw [if_pos hv] at hrun
        obtain ⟨inv1, hbnd1⟩ := skip_pres hpop hv inv hbnd
        exact ih _ _ hrun inv1 hbnd1
      · rw [if_neg hv] at hrun
        by_cases hdest : destino = some u
        · rw [if_pos hdest] at hrun
          injection hrun with hh
          obtain ⟨inv2, _, _, _, _⟩ := settle_pres hpop hv inv hbnd
          rw [← hh]
          refine ⟨inv2, ?_⟩
          intro hcon
          rw [hcon] at hdest
          exact Option.noConfusion hdest
        · rw [if_neg hdest] at hrun
          cases hadj : lookup g u with
          | none =>
            simp only [hadj] at hrun
            exact Except.noConfusion hrun
          | some adj =>
            simp only [hadj] at hrun
            cases hrel : relaxAll d u (settleStep m d u { st with cola := rest }) adj with
            | error e =>
              simp only [hrel] at hrun
              exact Except.noConfusion hrun
            | ok st3 =>
              simp only [hrel] at hrun
              obtain ⟨inv3, hbnd3, _, _⟩ := step_pres hpop hv hadj hrel inv hbnd
              exact ih _ _ hrun inv3 hbnd3

end Dij

namespace Dij

theorem relaxOne_keys {d : Int} {u : Node} {st st' : DState} {e : Node × Int}
    (h : relaxOne d u st e = .ok st') :
    ∀ v, (∃ dv, lookup st.distancias v = some dv) →
      ∃ dv', lookup st'.distancias v = some dv' := by
  intro v hv
  rcases relaxOne_split d u st e with ⟨_, hok⟩ | ⟨_, _, hok⟩ | ⟨_, _, hok⟩ | ⟨_, _, hok⟩ <;>
    rw [hok] at h
  · injection h with hh; rw [← hh]; exact hv
  · exact Except.noConfusion h
  · injection h with hh; rw [← hh]; exact hv
  · injection h with hh
    rw [← hh]
    simp only [relaxUpd_distancias]
    by_cases hvy : v = e.1
    · subst hvy
      exact ⟨some (d + e.2), lookup_setd_self _ _ _⟩
    · rw [lookup_setd_ne _ _ hvy]
      exact hv

theorem relaxAll_ok {d : Int} {u : Node} :
    ∀ (cur : Adj) (st : DState),
    (∀ e ∈ cur, ∃ dv, lookup st.distancias e.1 = some dv) →
    ∃ st', relaxAll d u st cur = .ok st' := by
  intro cur
  induction cur with
  | nil =>
    intro st _
    exact ⟨st, rfl⟩
  | cons e rest ih =>
    intro st hkeys
    have h1 : ∃ st1, relaxOne d u st e = .ok st1 := by
      rcases relaxOne_split d u st e with ⟨_, hok⟩ | ⟨_, hnone, hok⟩ | ⟨_, _, hok⟩ | ⟨_, _, hok⟩
      · exact ⟨st, hok⟩
      · obtain ⟨dv, hdv⟩ := hkeys e (List.mem_cons_self e rest)
        rw [hnone] at hdv
        exact Option.noConfusion hdv
      · exact ⟨st, hok⟩
      · exact ⟨_, hok⟩
    obtain ⟨st1, hst1⟩ := h1
    have hkeys1 : ∀ e' ∈ rest, ∃ dv, lookup st1.distancias e'.1 = some dv := by
      intro e' he'
      exact relaxOne_keys hst1 e'.1 (hkeys e' (List.mem_cons_of_mem e he'))
    obtain ⟨st', hst'⟩ := ih st1 hkeys1
    refine ⟨st', ?_⟩
    simp only [relaxAll, hst1, hst']

theorem pendiente_mono {g : Graph} {vis vis' : List Node}
    (h : ∀ x ∈ vis, x ∈ vis') : pendiente g vis' ≤ pendiente g vis := by
  induction g with
  | nil => simp [pendiente]
  | cons p rest ih =>
    simp only [pendiente, List.filter_cons] at ih ⊢
    by_cases h1 : p.1 ∈ vis'
    · have hd : decide (p.1 ∉ vis') = false := by simp [h1]
      rw [hd]
      by_cases h2 : p.1 ∈ vis
      · have hd2 : decide (p.1 ∉ vis) = false := by simp [h2]
        rw [hd2]
        simp only [Bool.false_eq_true, if_false]
        exact ih
      · have hd2 : decide (p.1 ∉ vis) = true := by simp [h2]
        rw [hd2]
        simp only [Bool.false_eq_true, if_false, if_true, List.map_cons, List.sum_cons]
        omega
    · have h2 : p.1 ∉ vis := fun hh => h1 (h p.1 hh)
      have hd : decide (p.1 ∉ vis') = true := by simp [h1]
      have hd2 : decide (p.1 ∉ vis) = true := by simp [h2]
      rw [hd, hd2]
      simp only [if_true, List.map_cons, List.sum_cons]
      omega

theorem pendiente_settle {g : Graph} {vis : List Node} {u : Node} {adj : Adj}
    (hnv : u ∉ vis) (hadj : lookup g u = some adj) :
    pendiente g (vis ++ [u]) + adj.length + 1 ≤ pendiente g vis := by
  induction g with
  | nil => simp [lookup] at hadj
  | cons p rest ih =>
    simp only [pendiente, List.filter_cons] at ih ⊢
    by_cases hp : p.1 = u
    · have hadj2 : p.2 = adj := by
        simp only [lookup, if_pos hp] at hadj
        injection hadj
      have h1 : p.1 ∉ vis := by rw [hp]; exact hnv
      have h2 : p.1 ∈ vis ++ [u] := by
        rw [hp]
        exact List.mem_append_right _ (by simp)
      have hd1 : decide (p.1 ∉ vis) = true := by simp [h1]
      have hd2 : decide (p.1 ∉ vis ++ [u]) = false := by simp [h2]
      rw [hd1, hd2]
      simp only [Bool.false_eq_true, if_false, if_true, List.map_cons, List.sum_cons]
      have hmono : pendiente rest (vis ++ [u]) ≤ pendiente rest vis :=
        pendiente_mono (fun x hx => List.mem_append_left _ hx)
      simp only [pendiente] at hmono
      rw [hadj2]
      omega
    · have hadj2 : lookup rest u = some adj := by
        simpa only [lookup, if_neg hp] using hadj
      have hiff : (p.1 ∈ vis ++ [u]) ↔ p.1 ∈ vis := by
        simp only [List.mem_append, List.mem_singleton]
        constructor
        · intro hh
          rcases hh with hh | hh
          · exact hh
          · exact absurd hh hp
        · intro hh
          exact Or.inl hh
      by_cases h2 : p.1 ∈ vis
      · have hd1 : decide (p.1 ∉ vis) = false := by simp [h2]
        have hd2 : decide (p.1 ∉ vis ++ [u]) = false := by simp [hiff.mpr h2]
        rw [hd1, hd2]
        simp only [Bool.false_eq_true, if_false]
        exact ih hadj2
      · have hd1 : decide (p.1 ∉ vis) = true := by simp [h2]
        have hd2 : decide (p.1 ∉ vis ++ [u]) = true := by
          simp only [decide_eq_true_eq]
          exact fun hh => h2 (hiff.mp hh)
        rw [hd1, hd2]
        simp only [if_true, List.map_cons, List.sum_cons]
        have := ih hadj2
        omega

end Dij

namespace Dij

/-- Fuel sufficiency and error freedom: with a source that is a graph key,
a neighbor-closed graph, and fuel above the measure, the loop returns
normally. -/
theorem loop_ok {g : Graph} {s : Node} {destino : Option Node} {m : Bool}
    (hs : s ∈ keysOf g) (hcl : ClosedG g) :
    ∀ (fuel : Nat) (st : DState), stFuel g st < fuel →
    Inv g s m st → Bnd g st →
    ∃ st', dijkstraLoop g destino m fuel st = .ok st' := by
  intro fuel
  induction fuel with
  | zero =>
    intro st hfuel
    exact absurd hfuel (Nat.not_lt_zero _)
  | succ fuel ih =>
    intro st hfuel inv hbnd
    rw [dijkstraLoop_succ]
    cases hpop : heapPop st.cola with
    | none => exact ⟨st, by simp [hpop]⟩
    | some pr =>
      obtain ⟨⟨d, u⟩, rest⟩ := pr
      obtain ⟨hmem, hrestEq, hmin⟩ := heapPop_spec hpop
      have hpos : 0 < st.cola.length := List.length_pos_of_mem hmem
      have hlen : rest.length + 1 = st.cola.length := by
        rw [hrestEq, List.length_erase_of_mem hmem]
        omega
      by_cases hv : u ∈ st.visitados
      · obtain ⟨inv1, hbnd1⟩ := skip_pres hpop hv inv hbnd
        have hfuel1 : stFuel g { st with cola := rest } < fuel := by
          have he : stFuel g { st with cola := rest }
              = rest.length + pendiente g st.visitados := rfl
          have he2 : stFuel g st = st.cola.length + pendiente g st.visitados := rfl
          rw [he2] at hfuel
          rw [he]
          omega
        obtain ⟨st', hst'⟩ := ih _ hfuel1 inv1 hbnd1
        exact ⟨st', by simp [hpop, hv, hst']⟩
      · by_cases hdest : destino = some u
        · exact ⟨settleStep m d u { st with cola := rest }, by simp [hpop, hv, hdest]⟩
        · have hukeys : u ∈ keysOf g := by
            obtain ⟨c, hc, _⟩ := inv.colaDom (d, u) hmem
            have hmem2 := lookup_some_mem_keys hc
            rwa [inv.distKeys hs] at hmem2
          obtain ⟨adj, hadj⟩ := mem_keys_exists_lookup hukeys
          have hadjmem : (u, adj) ∈ g := lookup_mem hadj
          have hkeys2 : ∀ e ∈ adj,
              ∃ dv, lookup (settleStep m d u { st with cola := rest }).distancias e.1
                = some dv := by
            intro e he
            have h1 : e.1 ∈ keysOf g := hcl (u, adj) hadjmem e he
            have h2 : e.1 ∈ keysOf st.distancias := by
              rw [inv.distKeys hs]
              exact h1
            obtain ⟨dv, hdv⟩ := mem_keys_exists_lookup h2
            refine ⟨dv, ?_⟩
            simp only [settleStep_distancias]
            exact hdv
          obtain ⟨st3, hrel⟩ := relaxAll_ok adj _ hkeys2
          obtain ⟨inv3, hbnd3, hvis3, hclen⟩ := step_pres hpop hv hadj hrel inv hbnd
          have hfuel3 : stFuel g st3 < fuel := by
            have hpend := pendiente_settle (g := g) hv hadj
            have he2 : stFuel g st = st.cola.length + pendiente g st.visitados := rfl
            have he3 : stFuel g st3 = st3.cola.length + pendiente g st3.visitados := rfl
            rw [he2] at hfuel
            rw [he3, hvis3]
            omega
          obtain ⟨st', hst'⟩ := ih st3 hfuel3 inv3 hbnd3
          exact ⟨st', by simp [hpop, hv, hdest, hadj, hrel, hst']⟩

/-- The invariant and the boundary hold at the initial state. -/
theorem inv_init (g : Graph) (s : Node) (m : Bool) :
    Inv g s m (initState g s) ∧ Bnd g (initState g s) := by
  have hlookup : ∀ v, v ≠ s →
      lookup (initState g s).distancias v
        = lookup (g.map (fun p => (p.1, (none : Option Int)))) v := by
    intro v hv
    exact lookup_setd_ne _ _ hv
  have hself : lookup (initState g s).distancias s = some (some 0) :=
    lookup_setd_self _ _ _
  have hinf : ∀ v (c : Int), lookup (initState g s).distancias v = some (some c) →
      v = s ∧ c = 0 := by
    intro v c hc
    by_cases hv : v = s
    · subst hv
      rw [hself] at hc
      have h1 : some (0 : Int) = some c := by injection hc
      have h2 : (0 : Int) = c := by injection h1
      exact ⟨rfl, h2.symm⟩
    · rw [hlookup v hv] at hc
      by_cases hk : v ∈ keysOf g
      · rw [lookup_map_const_of_mem _ hk] at hc
        have h1 : (none : Option Int) = some c := by injection hc
        exact Option.noConfusion h1
      · rw [lookup_map_const_of_not_mem _ hk] at hc
        exact Option.noConfusion hc
  have hcola : (initState g s).cola = [((0 : Int), s)] := rfl
  have hvis : (initState g s).visitados = [] := rfl
  have htr : (initState g s).trace = [] := rfl
  have hprev : ∀ v (w : Node), lookup (initState g s).anterior v = some (some w) → False := by
    intro v w hw
    by_cases hk : v ∈ keysOf g
    · have hc := lookup_map_const_of_mem (l := g) (none : Option Node) hk
      have : lookup (initState g s).anterior v = some none := hc
      rw [this] at hw
      have h1 : (none : Option Node) = some w := by injection hw
      exact Option.noConfusion h1
    · have hc := lookup_map_const_of_not_mem (l := g) (none : Option Node) hk
      have : lookup (initState g s).anterior v = none := hc
      rw [this] at hw
      exact Option.noConfusion hw
  constructor
  · exact
      { visNodup := List.nodup_nil
        colaDom := by
          intro e he
          rw [hcola, List.mem_singleton] at he
          subst he
          exact ⟨0, hself, le_refl 0⟩
        witness := by
          intro v c _ hc
          obtain ⟨hv, hc0⟩ := hinf v c hc
          subst hv
          subst hc0
          rw [hcola]
          simp
        visFinite := by
          intro v hv
          rw [hvis] at hv
          exact absurd hv (List.not_mem_nil v)
        traceOff := fun _ => rfl
        traceNodos := fun _ => rfl
        traceDist := by
          intro r hr
          rw [htr] at hr
          exact absurd hr (List.not_mem_nil r)
        traceSnap := by
          intro l1 r l2 hsplit
          have : ([] : List StepRecord) = l1 ++ r :: l2 := hsplit
          exact absurd this.symm (by simp)
        prevVis := by
          intro v w hw
          exact absurd hw (fun hh => hprev v w hh)
        prevFinite := by
          intro v w hw
          exact absurd hw (fun hh => hprev v w hh)
        distWalk := by
          intro _ v c hc
          obtain ⟨hv, hc0⟩ := hinf v c hc
          subst hv
          subst hc0
          exact ⟨[], rfl, rfl⟩
        colaWalk := by
          intro _ e he
          rw [hcola, List.mem_singleton] at he
          subst he
          exact ⟨[], rfl, rfl⟩
        distS := fun _ => hself
        prevS := by
          intro _ hs
          exact lookup_map_const_of_mem _ hs
        colaNonneg := by
          intro _ e he
          rw [hcola, List.mem_singleton] at he
          subst he
          exact le_refl 0
        settledOpt := by
          intro _ v hv
          rw [hvis] at hv
          exact absurd hv (List.not_mem_nil v)
        settleMono := by
          intro _ e _ v hv
          rw [hvis] at hv
          exact absurd hv (List.not_mem_nil v)
        tracePair := fun _ => List.Pairwise.nil
        distKeys := by
          intro hs
          have h1 : s ∈ keysOf (g.map (fun p => (p.1, (none : Option Int)))) := by
            rw [keysOf_map_const]
            exact hs
          have h2 := keysOf_setd_of_mem (l := g.map (fun p => (p.1, (none : Option Int))))
            (some (0 : Int)) h1
          calc keysOf (initState g s).distancias
              = keysOf (g.map (fun p => (p.1, (none : Option Int)))) := h2
            _ = keysOf g := keysOf_map_const g _
        prevKeys := fun _ => keysOf_map_const g _
        visKeys := by
          intro _ v hv
          rw [hvis] at hv
          exact absurd hv (List.not_mem_nil v) }
  · intro x hx
    rw [hvis] at hx
    exact absurd hx (List.not_mem_nil x)

end Dij

namespace Dij

/-- The invariant holds at the final state of every successful run; for a
run without a destination the boundary holds and the heap has drained. -/
theorem dijkstraState_inv {g : Graph} {s : Node} {destino : Option Node} {m : Bool}
    {st' : DState} (h : dijkstraState g s destino m = .ok st') :
    Inv g s m st' ∧ (destino = none → Bnd g st' ∧ st'.cola = []) := by
  obtain ⟨invi, bndi⟩ := inv_init g s m
  exact loop_pres _ _ _ h invi bndi

/-- With a source key and a neighbor-closed graph, the run returns
normally. -/
theorem dijkstraState_ok {g : Graph} (s : Node) (destino : Option Node) (m : Bool)
    (hs : s ∈ keysOf g) (hcl : ClosedG g) :
    ∃ st', dijkstraState g s destino m = .ok st' := by
  obtain ⟨invi, bndi⟩ := inv_init g s m
  exact loop_ok hs hcl _ _ (Nat.lt_succ_self _) invi bndi

/-- After a full drain of the heap, every reachable node has been
settled. -/
theorem final_reach_settled {g : Graph} {s : Node} {m : Bool} {st' : DState}
    (inv : Inv g s m st') (hbnd : Bnd g st') (hcola : st'.cola = [])
    (hnn : NonnegW g) {n : Node} (hr : Reachable g s n) : n ∈ st'.visitados := by
  by_contra hn
  obtain ⟨l, c, hcost, hend⟩ := hr
  obtain ⟨e, he, _⟩ := crossing inv hbnd hnn l c n hcost hend hn
  rw [hcola] at he
  exact absurd he (List.not_mem_nil e)

/-- After a full drain, the recorded distance of a reachable node is the
cost of a simple path and is minimal among all walks. -/
theorem final_dist_min {g : Graph} {s : Node} {m : Bool} {st' : DState}
    (inv : Inv g s m st') (hbnd : Bnd g st') (hcola : st'.cola = [])
    (hnn : NonnegW g) (hwf : AdjWF g) {n : Node} (hr : Reachable g s n) :
    ∃ c, lookup st'.distancias n = some (some c) ∧
      (∃ l, costOfWalk g s l = some c ∧ endOf s l = n ∧ (s :: l).Nodup) ∧
      (∀ l c', costOfWalk g s l = some c' → endOf s l = n → c ≤ c') := by
  have hvis := final_reach_settled inv hbnd hcola hnn hr
  obtain ⟨c, hc⟩ := inv.visFinite n hvis
  have hmin : ∀ l c', costOfWalk g s l = some c' → endOf s l = n → c ≤ c' :=
    fun l c' h1 h2 => inv.settledOpt hnn n hvis c hc l c' h1 h2
  obtain ⟨l, hl, hlend⟩ := inv.distWalk hwf n c hc
  obtain ⟨l2, c2, hl2, hl2end, hl2nd, hl2le⟩ := walk_to_simple hnn hl
  rw [hlend] at hl2end
  have hge : c ≤ c2 := hmin l2 c2 hl2 hl2end
  have hc2 : c2 = c := le_antisymm hl2le hge
  exact ⟨c, hc, ⟨l2, by rw [hl2, hc2], hl2end, hl2nd⟩, hmin⟩

/-- An unreachable graph key keeps an infinite distance and no
predecessor. -/
theorem final_unreachable {g : Graph} {s : Node} {m : Bool} {st' : DState}
    (inv : Inv g s m st') (hwf : AdjWF g) (hs : s ∈ keysOf g) {t : Node}
    (ht : t ∈ keysOf g) (hur : ¬ Reachable g s t) :
    lookup st'.distancias t = some none ∧ lookup st'.anterior t = some none := by
  have htd : t ∈ keysOf st'.distancias := by rw [inv.distKeys hs]; exact ht
  obtain ⟨dv, hdv⟩ := mem_keys_exists_lookup htd
  have hdvnone : dv = none := by
    cases dv with
    | none => rfl
    | some c =>
      obtain ⟨l, hl, hend⟩ := inv.distWalk hwf t c hdv
      exact absurd ⟨l, c, hl, hend⟩ hur
  subst hdvnone
  have htp : t ∈ keysOf st'.anterior := by rw [inv.prevKeys hs]; exact ht
  obtain ⟨pv, hpv⟩ := mem_keys_exists_lookup htp
  have hpvnone : pv = none := by
    cases pv with
    | none => rfl
    | some w =>
      obtain ⟨c, hc⟩ := inv.prevFinite t w hpv
      rw [hdv] at hc
      have h1 : (none : Option Int) = some c := by injection hc
      exact Option.noConfusion h1
  subst hpvnone
  exact ⟨hdv, hpv⟩

/-! Lemmas about `reconstruir_camino`. -/

theorem reconGo_mono {anterior : List (Node × Option Node)} :
    ∀ (fuel1 fuel2 : Nat) (nodo : Option Node) (acc l : List Node), fuel1 ≤ fuel2 →
    reconGo anterior fuel1 nodo acc = .ok l → reconGo anterior fuel2 nodo acc = .ok l := by
  intro fuel1
  induction fuel1 with
  | zero =>
    intro fuel2 nodo acc l _ h
    rw [show reconGo anterior 0 nodo acc = .error .noFuel from rfl] at h
    exact Except.noConfusion h
  | succ f ih =>
    intro fuel2 nodo acc l hle h
    obtain ⟨f2, rfl⟩ : ∃ f2, fuel2 = f2 + 1 := ⟨fuel2 - 1, by omega⟩
    cases nodo with
    | none => exact h
    | some v =>
      cases hp : lookup anterior v with
      | none =>
        rw [show reconGo anterior (f + 1) (some v) acc
          = match lookup anterior v with
            | none => .error .keyError
            | some p => reconGo anterior f p (acc ++ [v]) from rfl] at h
        rw [hp] at h
        exact Except.noConfusion h
      | some p =>
        rw [show reconGo anterior (f + 1) (some v) acc
          = match lookup anterior v with
            | none => .error .keyError
            | some p => reconGo anterior f p (acc ++ [v]) from rfl] at h
        rw [hp] at h
        have := ih f2 p (acc ++ [v]) l (by omega) h
        rw [show reconGo anterior (f2 + 1) (some v) acc
          = match lookup anterior v with
            | none => .error .keyError
            | some p => reconGo anterior f2 p (acc ++ [v]) from rfl]
        rw [hp]
        exact this

/-- Following predecessor links from a settled node terminates: the
settlement index strictly decreases along the chain. -/
theorem reconGo_chain {g : Graph} {s : Node} {m : Bool} {st' : DState}
    (inv : Inv g s m st') (hsk : s ∈ keysOf g) :
    ∀ (k : Nat) (v : Node) (acc : List Node) (fuel : Nat), v ∈ st'.visitados →
      idxOf st'.visitados v < k → k + 1 ≤ fuel →
      ∃ l, reconGo st'.anterior fuel (some v) acc = .ok l := by
  intro k
  induction k with
  | zero =>
    intro v acc fuel _ hidx
    omega
  | succ k ih =>
    intro v acc fuel hv hidx hfuel
    have hvk : v ∈ keysOf st'.anterior := by
      rw [inv.prevKeys hsk]
      exact inv.visKeys hsk v hv
    obtain ⟨p, hp⟩ := mem_keys_exists_lookup hvk
    obtain ⟨f1, rfl⟩ : ∃ f1, fuel = f1 + 1 := ⟨fuel - 1, by omega⟩
    cases p with
    | none =>
      obtain ⟨f2, rfl⟩ : ∃ f2, f1 = f2 + 1 := ⟨f1 - 1, by omega⟩
      exact ⟨acc ++ [v], by simp [reconGo, hp]⟩
    | some w =>
      obtain ⟨hwv, hidxw⟩ := inv.prevVis v w hp
      have hlt := hidxw hv
      obtain ⟨l, hl⟩ := ih w (acc ++ [v]) f1 hwv (by omega) (by omega)
      exact ⟨l, by simp [reconGo, hp, hl]⟩

/-- The predecessor walk from any graph key terminates within fuel one
more than the dictionary size. -/
theorem reconGo_terminates {g : Graph} {s : Node} {m : Bool} {st' : DState}
    (inv : Inv g s m st') (hsk : s ∈ keysOf g) (t : Node) (ht : t ∈ keysOf g) :
    ∀ fuel, st'.anterior.length + 1 ≤ fuel →
      ∃ l, reconGo st'.anterior fuel (some t) [] = .ok l := by
  have hnd := inv.visNodup
  have hsub : ∀ v ∈ st'.visitados, v ∈ keysOf st'.anterior := by
    intro v hv
    rw [inv.prevKeys hsk]
    exact inv.visKeys hsk v hv
  have hlenvis : st'.visitados.length ≤ st'.anterior.length := by
    have h1 := (List.subperm_of_subset hnd hsub).length_le
    rwa [length_keysOf] at h1
  intro fuel hfuel
  by_cases htv : t ∈ st'.visitados
  · exact reconGo_chain inv hsk st'.visitados.length t [] fuel htv
      (idxOf_lt_length htv) (by omega)
  · have hlen2 : st'.visitados.length + 1 ≤ st'.anterior.length := by
      have hnd2 : (t :: st'.visitados).Nodup := List.nodup_cons.mpr ⟨htv, hnd⟩
      have hsub2 : ∀ v ∈ t :: st'.visitados, v ∈ keysOf st'.anterior := by
        intro v hv
        rcases List.mem_cons.mp hv with hh | hv2
        · rw [hh, inv.prevKeys hsk]
          exact ht
        · exact hsub v hv2
      have h2 := (List.subperm_of_subset hnd2 hsub2).length_le
      rw [length_keysOf] at h2
      simpa using h2
    have htk : t ∈ keysOf st'.anterior := by rw [inv.prevKeys hsk]; exact ht
    obtain ⟨p, hp⟩ := mem_keys_exists_lookup htk
    have hlenpos : 0 < st'.anterior.length := by
      have := List.length_pos_of_mem htk
      rwa [length_keysOf] at this
    obtain ⟨f1, rfl⟩ : ∃ f1, fuel = f1 + 1 := ⟨fuel - 1, by omega⟩
    cases p with
    | none =>
      obtain ⟨f2, rfl⟩ : ∃ f2, f1 = f2 + 1 := ⟨f1 - 1, by omega⟩
      exact ⟨[t], by simp [reconGo, hp]⟩
    | some w =>
      obtain ⟨hwv, _⟩ := inv.prevVis t w hp
      obtain ⟨l, hl⟩ := reconGo_chain inv hsk st'.visitados.length w [t] f1 hwv
        (idxOf_lt_length hwv) (by omega)
      exact ⟨l, by simp [reconGo, hp, hl]⟩

/-- A node whose predecessor entry is `None` and that differs from the
start yields the empty reconstruction. -/
theorem reconstruir_none_ne {anterior : List (Node × Option Node)} {t inicio : Node}
    (hp : lookup anterior t = some none) (hne : t ≠ inicio) :
    ∀ fuel, 2 ≤ fuel → reconstruir_camino anterior inicio t fuel = .ok [] := by
  intro fuel hfuel
  obtain ⟨f, rfl⟩ : ∃ f, fuel = f + 2 := ⟨fuel - 2, by omega⟩
  have hgo : reconGo anterior (f + 2) (some t) [] = .ok [t] := by
    simp [reconGo, hp]
  simp [reconstruir_camino, hgo, hne]

/-- When start and target coincide and the start has no predecessor, the
reconstruction is the singleton. -/
theorem reconstruir_none_self {anterior : List (Node × Option Node)} {s : Node}
    (hp : lookup anterior s = some none) :
    ∀ fuel, 2 ≤ fuel → reconstruir_camino anterior s s fuel = .ok [s] := by
  intro fuel hfuel
  obtain ⟨f, rfl⟩ : ∃ f, fuel = f + 2 := ⟨fuel - 2, by omega⟩
  have hgo : reconGo anterior (f + 2) (some s) [] = .ok [s] := by
    simp [reconGo, hp]
  simp [reconstruir_camino, hgo]

end Dij

namespace Dij

deriving instance DecidableEq for Except

instance decClosedG (g : Graph) : Decidable (ClosedG g) := by
  unfold ClosedG
  infer_instance

instance decNonnegW (g : Graph) : Decidable (NonnegW g) := by
  unfold NonnegW
  infer_instance

instance decAdjWF (g : Graph) : Decidable (AdjWF g) := by
  unfold AdjWF
  infer_instance

/-- A successful `dijkstra` run determines a successful full-state run
with the same distance and predecessor dictionaries. -/
theorem dijkstra_ok_state {g : Graph} {s : Node} {destino : Option Node} {m : Bool}
    {dm : List (Node × Option Int)} {pm : List (Node × Option Node)}
    (h : dijkstra g s destino m = .ok (dm, pm)) :
    ∃ st', dijkstraState g s destino m = .ok st' ∧
      st'.distancias = dm ∧ st'.anterior = pm := by
  unfold dijkstra at h
  cases hst : dijkstraState g s destino m with
  | error e =>
    rw [hst] at h
    exact Except.noConfusion h
  | ok st' =>
    rw [hst] at h
    simp only [Except.map] at h
    injection h with hh
    exact ⟨st', rfl, congrArg Prod.fst hh, congrArg Prod.snd hh⟩

/-- The example graph of the repository, with A, B, C, D encoded as
0, 1, 2, 3. -/
def ejemploGrafo : Graph :=
  [(0, [(1, 4), (2, 2)]), (1, [(2, 5), (3, 10)]), (2, [(3, 3)]), (3, [])]

/-- Claim C1: for every graph with non-negative weights (and the
dictionary well-formedness inherent to the source's data model), every
node reachable from the source is mapped by the returned distance
dictionary to the minimum, over all paths from the source to it, of the
sum of edge weights: the value is attained by a duplicate-free path and
bounds every walk from below. -/
theorem claim_C1 (g : Graph) (s n : Node)
    (hs : s ∈ keysOf g) (hcl : ClosedG g) (hwf : AdjWF g) (hnn : NonnegW g)
    (hr : Reachable g s n) :
    ∃ dm pm c, dijkstra g s none true = .ok (dm, pm) ∧
      lookup dm n = some (some c) ∧
      (∃ l, costOfWalk g s l = some c ∧ endOf s l = n ∧ (s :: l).Nodup) ∧
      (∀ l c', costOfWalk g s l = some c' → endOf s l = n → c ≤ c') := by
  obtain ⟨st', hst'⟩ := dijkstraState_ok s none true hs hcl
  obtain ⟨inv, hrest⟩ := dijkstraState_inv hst'
  obtain ⟨hbnd, hcola⟩ := hrest rfl
  obtain ⟨c, hc, hach, hmin⟩ := final_dist_min inv hbnd hcola hnn hwf hr
  refine ⟨st'.distancias, st'.anterior, c, ?_, hc, hach, hmin⟩
  simp [dijkstra, hst', Except.map]

/-- Witness for C1 at the repository's example graph with target D. -/
theorem claim_C1_witness :
    ((0 : Node) ∈ keysOf ejemploGrafo ∧ ClosedG ejemploGrafo ∧ AdjWF ejemploGrafo ∧
      NonnegW ejemploGrafo ∧ Reachable ejemploGrafo 0 3) ∧
    (∃ dm pm c, dijkstra ejemploGrafo 0 none true = .ok (dm, pm) ∧
      lookup dm 3 = some (some c) ∧
      (∃ l, costOfWalk ejemploGrafo 0 l = some c ∧ endOf 0 l = 3 ∧ ((0 : Node) :: l).Nodup) ∧
      (∀ l c', costOfWalk ejemploGrafo 0 l = some c' → endOf 0 l = 3 → c ≤ c')) :=
  ⟨⟨by decide, by decide, by decide, by decide, ⟨[2, 3], 5, by decide, by decide⟩⟩,
    claim_C1 ejemploGrafo 0 3 (by decide) (by decide) (by decide) (by decide)
      ⟨[2, 3], 5, by decide, by decide⟩⟩

/-- Counterexample to claim C2 as stated: called directly with a target
that is not a key of the graph, `dijkstra` does not fail — it runs to
completion and returns a distance map. -/
theorem claim_C2_counterexample :
    dijkstra [(0, [])] 0 (some 5) true = .ok ([(0, some 0)], [(0, none)]) := by
  decide

/-- Claim C2 (amended): the membership validation of source and
destination is performed by the `__main__` entry point before `dijkstra`
is invoked; when either node is missing from the graph the entry point
reports the error and does not run the algorithm. -/
theorem claim_C2 (g : Graph) (inicio destino : Node)
    (h : inicio ∉ keysOf g ∨ destino ∉ keysOf g) :
    mainRun g inicio destino = MainOut.nodeError := by
  unfold mainRun
  rw [if_pos h]

/-- Witness for the amended C2. -/
theorem claim_C2_witness :
    ((0 : Node) ∉ keysOf [((0 : Node), ([] : Adj))] ∨
      (5 : Node) ∉ keysOf [((0 : Node), ([] : Adj))]) ∧
    mainRun [(0, [])] 0 5 = MainOut.nodeError :=
  ⟨by decide, claim_C2 [(0, [])] 0 5 (by decide)⟩

/-- Claim C3: whenever `dijkstra` completes, the step records — the
modelled form of the per-step console report — number one per settled
node in settlement order; each carries the settled node, its confirmed
distance (which agrees with the final distance map), and a snapshot of
the distance map showing that distance; and the sequence is empty when
the trace flag is off. -/
theorem claim_C3 (g : Graph) (s : Node) (destino : Option Node) (m : Bool) (st : DState)
    (hrun : dijkstraState g s destino m = .ok st) :
    (m = false → st.trace = []) ∧
    (m = true → st.trace.map StepRecord.nodo = st.visitados ∧
      ∀ r ∈ st.trace, lookup st.distancias r.nodo = some (some r.dist) ∧
        lookup r.snapshot r.nodo = some (some r.dist)) := by
  obtain ⟨inv, _⟩ := dijkstraState_inv hrun
  refine ⟨inv.traceOff, ?_⟩
  intro hm
  refine ⟨inv.traceNodos hm, ?_⟩
  intro r hr
  refine ⟨inv.traceDist r hr, ?_⟩
  obtain ⟨l1, l2, hsplit⟩ := List.append_of_mem hr
  exact inv.traceSnap l1 r l2 hsplit r (List.mem_append_right _ (by simp))

/-- The final state of the one-node example run used as witness data. -/
def testigoEstado : DState :=
  ⟨[(0, some 0)], [(0, none)], [], [0], 1, [⟨0, 0, 0, [(0, some 0)]⟩]⟩

/-- Witness for C3 on the one-node graph. -/
theorem claim_C3_witness :
    dijkstraState [((0 : Node), ([] : Adj))] 0 none true = .ok testigoEstado ∧
    ((true = false → testigoEstado.trace = []) ∧
      (true = true → testigoEstado.trace.map StepRecord.nodo = testigoEstado.visitados ∧
        ∀ r ∈ testigoEstado.trace,
          lookup testigoEstado.distancias r.nodo = some (some r.dist) ∧
            lookup r.snapshot r.nodo = some (some r.dist))) :=
  ⟨by decide, claim_C3 [(0, [])] 0 none true testigoEstado (by decide)⟩

/-- Counterexample to claim C4 as stated: a graph in which node 1 is
referenced as a neighbor but has no adjacency entry makes `dijkstra`
fail with a KeyError while relaxing the edge into it, instead of
completing normally. -/
theorem claim_C4_counterexample :
    dijkstra [(0, [(1, 1)])] 0 none true = .error .keyError := by
  decide

/-- Claim C4 (amended): `dijkstra` completes normally when the source is
a key and every node referenced as a neighbor has its own entry; a
neighbor without an entry is not treated as having no outgoing edges but
raises a KeyError when its distance entry is read during relaxation. -/
theorem claim_C4 (g : Graph) (s : Node) (destino : Option Node) (m : Bool)
    (hs : s ∈ keysOf g) (hcl : ClosedG g) :
    ∃ dm pm, dijkstra g s destino m = .ok (dm, pm) := by
  obtain ⟨st', hst'⟩ := dijkstraState_ok s destino m hs hcl
  exact ⟨st'.distancias, st'.anterior, by simp [dijkstra, hst', Except.map]⟩

/-- Witness for the amended C4. -/
theorem claim_C4_witness :
    ((0 : Node) ∈ keysOf ejemploGrafo ∧ ClosedG ejemploGrafo) ∧
    (∃ dm pm, dijkstra ejemploGrafo 0 (some 3) true = .ok (dm, pm)) :=
  ⟨⟨by decide, by decide⟩, claim_C4 ejemploGrafo 0 (some 3) true (by decide) (by decide)⟩

/-- Claim C5: on the example graph with source A and target D the
distance map is A 0, B 4, C 2, D 5; the predecessor map reconstructs the
path A, C, D; and the total distance to D is 5. -/
theorem claim_C5 :
    dijkstra ejemploGrafo 0 (some 3) true
      = .ok ([(0, some 0), (1, some 4), (2, some 2), (3, some 5)],
             [(0, none), (1, some 0), (2, some 0), (3, some 2)]) ∧
    reconstruir_camino [(0, none), (1, some 0), (2, some 0), (3, some 2)] 0 3 5
      = .ok [0, 2, 3] ∧
    lookup [((0 : Node), some (0 : Int)), (1, some 4), (2, some 2), (3, some 5)] 3
      = some (some 5) := by
  decide

end Dij

namespace Dij

/-- Claim C6: in every completed traced run on a graph with non-negative
weights, no node is settled twice, the step records follow the settlement
order, their confirmed distances are non-decreasing, and once a node is
settled its distance entry is the same in every later snapshot and in the
final distance map. -/
theorem claim_C6 (g : Graph) (s : Node) (destino : Option Node) (st : DState)
    (hnn : NonnegW g)
    (hrun : dijkstraState g s destino true = .ok st) :
    st.visitados.Nodup ∧
    st.trace.map StepRecord.nodo = st.visitados ∧
    List.Pairwise (· ≤ ·) (st.trace.map StepRecord.dist) ∧
    (∀ l1 r l2, st.trace = l1 ++ r :: l2 → ∀ r' ∈ l1 ++ [r],
      lookup r.snapshot r'.nodo = some (some r'.dist)) ∧
    (∀ r ∈ st.trace, lookup st.distancias r.nodo = some (some r.dist)) := by
  obtain ⟨inv, _⟩ := dijkstraState_inv hrun
  exact ⟨inv.visNodup, inv.traceNodos rfl, inv.tracePair hnn, inv.traceSnap, inv.traceDist⟩

/-- Witness for C6 on the one-node graph. -/
theorem claim_C6_witness :
    (NonnegW [((0 : Node), ([] : Adj))] ∧
      dijkstraState [((0 : Node), ([] : Adj))] 0 none true = .ok testigoEstado) ∧
    (testigoEstado.visitados.Nodup ∧
      testigoEstado.trace.map StepRecord.nodo = testigoEstado.visitados ∧
      List.Pairwise (· ≤ ·) (testigoEstado.trace.map StepRecord.dist) ∧
      (∀ l1 r l2, testigoEstado.trace = l1 ++ r :: l2 → ∀ r' ∈ l1 ++ [r],
        lookup r.snapshot r'.nodo = some (some r'.dist)) ∧
      (∀ r ∈ testigoEstado.trace,
        lookup testigoEstado.distancias r.nodo = some (some r.dist))) :=
  ⟨⟨by decide, by decide⟩,
    claim_C6 [(0, [])] 0 none testigoEstado (by decide) (by decide)⟩

/-- Claim C7: a graph key that is unreachable from the source keeps an
infinite distance and no predecessor in every completed run, and the path
reconstruction toward it yields the empty sequence. -/
theorem claim_C7 (g : Graph) (s t : Node) (destino : Option Node) (m : Bool)
    (dm : List (Node × Option Int)) (pm : List (Node × Option Node))
    (hs : s ∈ keysOf g) (ht : t ∈ keysOf g) (hwf : AdjWF g) (hnn : NonnegW g)
    (hur : ¬ Reachable g s t)
    (hrun : dijkstra g s destino m = .ok (dm, pm)) :
    lookup dm t = some none ∧ lookup pm t = some none ∧
      ∀ fuel, 2 ≤ fuel → reconstruir_camino pm s t fuel = .ok [] := by
  obtain ⟨st', hst, hdm, hpm⟩ := dijkstra_ok_state hrun
  obtain ⟨inv, _⟩ := dijkstraState_inv hst
  obtain ⟨hd, hp⟩ := final_unreachable inv hwf hs ht hur
  have hts : t ≠ s := fun hh => hur (by rw [hh]; exact ⟨[], 0, rfl, rfl⟩)
  subst hdm
  subst hpm
  exact ⟨hd, hp, fun fuel hf => reconstruir_none_ne hp hts fuel hf⟩

/-- In the two-isolated-nodes graph, node 1 is unreachable from node 0. -/
theorem noAlcanzable_testigo : ¬ Reachable [((0 : Node), ([] : Adj)), (1, [])] 0 1 := by
  rintro ⟨l, c, hcost, hend⟩
  cases l with
  | nil => simp [endOf] at hend
  | cons v rest => simp [costOfWalk, edgeW, lookup] at hcost

/-- Witness for C7 on the two-isolated-nodes graph. -/
theorem claim_C7_witness :
    ((0 : Node) ∈ keysOf [((0 : Node), ([] : Adj)), (1, [])] ∧
      (1 : Node) ∈ keysOf [((0 : Node), ([] : Adj)), (1, [])] ∧
      AdjWF [((0 : Node), ([] : Adj)), (1, [])] ∧
      NonnegW [((0 : Node), ([] : Adj)), (1, [])] ∧
      ¬ Reachable [((0 : Node), ([] : Adj)), (1, [])] 0 1 ∧
      dijkstra [((0 : Node), ([] : Adj)), (1, [])] 0 (some 1) true
        = .ok ([(0, some 0), (1, none)], [(0, none), (1, none)])) ∧
    (lookup [((0 : Node), some (0 : Int)), (1, none)] 1 = some none ∧
      lookup [((0 : Node), (none : Option Node)), (1, none)] 1 = some none ∧
      ∀ fuel, 2 ≤ fuel →
        reconstruir_camino [((0 : Node), (none : Option Node)), (1, none)] 0 1 fuel
          = .ok []) :=
  ⟨⟨by decide, by decide, by decide, by decide, noAlcanzable_testigo, by decide⟩,
    claim_C7 [((0 : Node), ([] : Adj)), (1, [])] 0 1 (some 1) true
      [(0, some 0), (1, none)] [(0, none), (1, none)]
      (by decide) (by decide) (by decide) (by decide) noAlcanzable_testigo (by decide)⟩

/-- Claim C8: for every predecessor map produced by a completed run on a
graph with non-negative weights whose source is a graph key, reconstruct
with start equal to target returns the singleton of that node. -/
theorem claim_C8 (g : Graph) (s : Node) (destino : Option Node) (m : Bool)
    (dm : List (Node × Option Int)) (pm : List (Node × Option Node))
    (hs : s ∈ keysOf g) (hnn : NonnegW g)
    (hrun : dijkstra g s destino m = .ok (dm, pm)) :
    ∀ fuel, 2 ≤ fuel → reconstruir_camino pm s s fuel = .ok [s] := by
  obtain ⟨st', hst, hdm, hpm⟩ := dijkstra_ok_state hrun
  obtain ⟨inv, _⟩ := dijkstraState_inv hst
  have hp := inv.prevS hnn hs
  rw [hpm] at hp
  exact fun fuel hf => reconstruir_none_self hp fuel hf

/-- Witness for C8 on the example graph. -/
theorem claim_C8_witness :
    ((0 : Node) ∈ keysOf ejemploGrafo ∧ NonnegW ejemploGrafo ∧
      dijkstra ejemploGrafo 0 (some 3) true
        = .ok ([(0, some 0), (1, some 4), (2, some 2), (3, some 5)],
               [(0, none), (1, some 0), (2, some 0), (3, some 2)])) ∧
    (∀ fuel, 2 ≤ fuel →
      reconstruir_camino [((0 : Node), (none : Option Node)), (1, some 0), (2, some 0),
        (3, some 2)] 0 0 fuel = .ok [0]) :=
  ⟨⟨by decide, by decide, by decide⟩,
    claim_C8 ejemploGrafo 0 (some 3) true
      [(0, some 0), (1, some 4), (2, some 2), (3, some 5)]
      [(0, none), (1, some 0), (2, some 0), (3, some 2)]
      (by decide) (by decide) (by decide)⟩

/-- Claim C9: `dijkstra` is deterministic — two runs with identical
graph, source, destination, and trace flag, each starting from a fresh
internal state, return identical results (hence identical distance and
predecessor maps). -/
theorem claim_C9 (g1 g2 : Graph) (s1 s2 : Node) (d1 d2 : Option Node) (m1 m2 : Bool)
    (hg : g1 = g2) (hs : s1 = s2) (hd : d1 = d2) (hm : m1 = m2) :
    dijkstra g1 s1 d1 m1 = dijkstra g2 s2 d2 m2 := by
  subst hg
  subst hs
  subst hd
  subst hm
  rfl

/-- Witness for C9 on the example graph. -/
theorem claim_C9_witness :
    (ejemploGrafo = ejemploGrafo ∧ (0 : Node) = 0 ∧
      (some (3 : Node)) = some 3 ∧ true = true) ∧
    dijkstra ejemploGrafo 0 (some 3) true = dijkstra ejemploGrafo 0 (some 3) true :=
  ⟨⟨rfl, rfl, rfl, rfl⟩, claim_C9 ejemploGrafo ejemploGrafo 0 0 (some 3) (some 3)
    true true rfl rfl rfl rfl⟩

/-- Claim C10: for every predecessor map produced by a completed run on a
graph with non-negative weights whose source is a graph key, the
predecessor walk from any graph key terminates: with fuel one more than
the dictionary size (hence any larger fuel) the reconstruction returns
normally, so the predecessor map has no cycle. -/
theorem claim_C10 (g : Graph) (s : Node) (destino : Option Node) (m : Bool)
    (dm : List (Node × Option Int)) (pm : List (Node × Option Node)) (t : Node)
    (hs : s ∈ keysOf g) (hnn : NonnegW g) (ht : t ∈ keysOf g)
    (hrun : dijkstra g s destino m = .ok (dm, pm)) :
    ∃ l, ∀ fuel, pm.length + 1 ≤ fuel → reconstruir_camino pm s t fuel = .ok l := by
  obtain ⟨st', hst, hdm, hpm⟩ := dijkstra_ok_state hrun
  obtain ⟨inv, _⟩ := dijkstraState_inv hst
  subst hpm
  obtain ⟨l0, hl0⟩ := reconGo_terminates inv hs t ht (st'.anterior.length + 1) (le_refl _)
  by_cases hcond : l0.reverse = [] ∨ l0.reverse.head? ≠ some s
  · refine ⟨[], ?_⟩
    intro fuel hfuel
    have hgo := reconGo_mono (st'.anterior.length + 1) fuel (some t) [] l0 hfuel hl0
    have hred : reconstruir_camino st'.anterior s t fuel
        = if l0.reverse = [] ∨ l0.reverse.head? ≠ some s then .ok [] else .ok l0.reverse := by
      unfold reconstruir_camino
      rw [hgo]
    rw [hred, if_pos hcond]
  · refine ⟨l0.reverse, ?_⟩
    intro fuel hfuel
    have hgo := reconGo_mono (st'.anterior.length + 1) fuel (some t) [] l0 hfuel hl0
    have hred : reconstruir_camino st'.anterior s t fuel
        = if l0.reverse = [] ∨ l0.reverse.head? ≠ some s then .ok [] else .ok l0.reverse := by
      unfold reconstruir_camino
      rw [hgo]
    rw [hred, if_neg hcond]

/-- Witness for C10 on the example graph. -/
theorem claim_C10_witness :
    ((0 : Node) ∈ keysOf ejemploGrafo ∧ NonnegW ejemploGrafo ∧
      (1 : Node) ∈ keysOf ejemploGrafo ∧
      dijkstra ejemploGrafo 0 (some 3) true
        = .ok ([(0, some 0), (1, some 4), (2, some 2), (3, some 5)],
               [(0, none), (1, some 0), (2, some 0), (3, some 2)])) ∧
    (∃ l, ∀ fuel,
      ([((0 : Node), (none : Option Node)), (1, some 0), (2, some 0), (3, some 2)]).length + 1
        ≤ fuel →
      reconstruir_camino [((0 : Node), (none : Option Node)), (1, some 0), (2, some 0),
        (3, some 2)] 0 1 fuel = .ok l) :=
  ⟨⟨by decide, by decide, by decide, by decide⟩,
    claim_C10 ejemploGrafo 0 (some 3) true
      [(0, some 0), (1, some 4), (2, some 2), (3, some 5)]
      [(0, none), (1, some 0), (2, some 0), (3, some 2)] 1
      (by decide) (by decide) (by decide) (by decide)⟩

end Dij
